import Mathlib

/-!
Shallow embedding of the `bulldag` repository (a generic in-memory DAG
container) and verification of its specification claims.

Modelling conventions:
* Rust `HashSet<Ix>` values (roots, leaves, per-vertex neighbor sets, the
  edge set) are modelled as duplicate-free `List`s; `HashSet::insert` is
  `insertSet` (a no-op when the element is present, otherwise an append)
  and `HashSet::remove` is `List.erase`.  Only membership and cardinality
  of these sets are observable in the claims; the list order is one
  admissible iteration order.
* Rust `HashMap<Ix, Vertex<T, Ix>>` is modelled as a `List (Vertex T Ix)`
  keyed by the `index` field: the source always inserts with key
  `vertex.get_index()`, so the key is exactly the stored vertex's index.
* The recursive traversals (`get_sources`/`get_references` behind `trace`,
  and `dfs`) have no termination guarantee in the source; they are
  embedded with an explicit fuel parameter, `none` standing for fuel
  exhaustion (i.e. divergence of the source recursion).  The fuel used by
  the graph operations is `traceFuel = vertices.length + 2`, which is
  proved sufficient on acyclic graphs.
-/

namespace Bulldag

/-- `HashSet::insert` on a set modelled as a duplicate-free list. -/
def insertSet {α : Type} [DecidableEq α] (l : List α) (x : α) : List α :=
  if x ∈ l then l else l ++ [x]

/-- `Edge<Ix>` from `src/edge.rs`: an immutable ordered pair of keys. -/
structure Edge (Ix : Type) where
  source : Ix
  reference : Ix
  deriving DecidableEq, Repr

/-- `Edge::new`. -/
def Edge.new {Ix : Type} (source reference : Ix) : Edge Ix := ⟨source, reference⟩

/-- `Edge::get_source`. -/
def Edge.get_source {Ix : Type} (e : Edge Ix) : Ix := e.source

/-- `Edge::get_reference`. -/
def Edge.get_reference {Ix : Type} (e : Edge Ix) : Ix := e.reference

/-- `Direction` from `src/vertex.rs`. -/
inductive Direction where
  | Source
  | Reference

/-- `Vertex<T, Ix>` from `src/vertex.rs`. -/
structure Vertex (T Ix : Type) where
  data : T
  sources : List Ix
  references : List Ix
  index : Ix
  deriving DecidableEq, Repr

variable {T Ix : Type} [DecidableEq Ix]

/-- `Vertex::new`: empty neighbor sets. -/
def Vertex.new (data : T) (index : Ix) : Vertex T Ix :=
  ⟨data, [], [], index⟩

/-- `Vertex::get_data`. -/
def Vertex.get_data (v : Vertex T Ix) : T := v.data

/-- `Vertex::get_index`. -/
def Vertex.get_index (v : Vertex T Ix) : Ix := v.index

/-- `Vertex::get_sources`. -/
def Vertex.get_sources (v : Vertex T Ix) : List Ix := v.sources

/-- `Vertex::get_references`. -/
def Vertex.get_references (v : Vertex T Ix) : List Ix := v.references

/-- `Vertex::is_source`. -/
def Vertex.is_source (v : Vertex T Ix) (target : Ix) : Bool :=
  decide (target ∈ v.sources)

/-- `Vertex::is_reference`. -/
def Vertex.is_reference (v : Vertex T Ix) (target : Ix) : Bool :=
  decide (target ∈ v.references)

/-- `Vertex::n_sources`. -/
def Vertex.n_sources (v : Vertex T Ix) : Nat := v.sources.length

/-- `Vertex::n_references`. -/
def Vertex.n_references (v : Vertex T Ix) : Nat := v.references.length

/-- `Vertex::add_source` (private helper). -/
def Vertex.add_source (v : Vertex T Ix) (source : Ix) : Vertex T Ix :=
  { v with sources := insertSet v.sources source }

/-- `Vertex::add_reference` (private helper). -/
def Vertex.add_reference (v : Vertex T Ix) (reference : Ix) : Vertex T Ix :=
  { v with references := insertSet v.references reference }

/-- `Vertex::add_edge`: absorb an edge into the neighbor sets.  The two
checks of the source are sequential and independent. -/
def Vertex.add_edge (v : Vertex T Ix) (e : Edge Ix) : Vertex T Ix :=
  let v1 := if e.get_source = v.index then v.add_reference e.get_reference else v
  if e.get_reference = v1.index then v1.add_source e.get_source else v1

/-- `GraphError` from `src/graph.rs`. -/
inductive GraphError where
  | WouldCycle
  | NonExistentSource
  | NonExistentReference
  | NonExistentVertex
  | NoEdges
  | Other (msg : String)
  deriving DecidableEq, Repr

/-- `GraphOk<Ix>` from `src/graph.rs`. -/
inductive GraphOk (Ix : Type) where
  | Ok
  | VecRes (v : List Ix)
  deriving DecidableEq, Repr

/-- `GraphResult<Ix> = Result<GraphOk<Ix>, GraphError>` from `src/graph.rs`. -/
inductive GraphResult (Ix : Type) where
  | Ok (val : GraphOk Ix)
  | Err (err : GraphError)
  deriving DecidableEq, Repr

/-- `Result::is_ok` on an optional result (`none` models divergence of the
recursive trace, which never reaches the `is_ok` test in the source). -/
def isOkResult {Ix : Type} : Option (GraphResult Ix) → Bool
  | some (.Ok _) => true
  | _ => false

/-- `BullDag<T, Ix>` from `src/graph.rs`.  `vertices` models the
`HashMap<Ix, Vertex>` keyed by the stored vertex's `index` field. -/
structure BullDag (T Ix : Type) where
  roots : List Ix
  leaves : List Ix
  vertices : List (Vertex T Ix)
  edges : List (Edge Ix)
  deriving DecidableEq, Repr

/-- `BullDag::new`. -/
def BullDag.new : BullDag T Ix := ⟨[], [], [], []⟩

/-- `HashMap::insert`: replace the entry with the same key, else append. -/
def insertVertexList (vs : List (Vertex T Ix)) (v : Vertex T Ix) :
    List (Vertex T Ix) :=
  if vs.any (fun w => decide (w.index = v.index)) then
    vs.map (fun w => if w.index = v.index then v else w)
  else vs ++ [v]

/-- `BullDag::get_vertex`: `HashMap` lookup by key. -/
def BullDag.get_vertex (g : BullDag T Ix) (target : Ix) :
    Option (Vertex T Ix) :=
  g.vertices.find? (fun v => decide (v.index = target))

/-- `BullDag::add_root`. -/
def BullDag.add_root (g : BullDag T Ix) (index : Ix) : BullDag T Ix :=
  { g with roots := insertSet g.roots index }

/-- `BullDag::clean_root`. -/
def BullDag.clean_root (g : BullDag T Ix) (index : Ix) : BullDag T Ix :=
  if index ∈ g.roots then
    match g.get_vertex index with
    | some vtx =>
      if !vtx.get_sources.isEmpty then { g with roots := g.roots.erase index }
      else g
    | none => g
  else g

/-- `BullDag::get_roots` (cloned snapshot). -/
def BullDag.get_roots (g : BullDag T Ix) : List Ix := g.roots

/-- `BullDag::n_roots`. -/
def BullDag.n_roots (g : BullDag T Ix) : Nat := g.roots.length

/-- `BullDag::add_leaf`. -/
def BullDag.add_leaf (g : BullDag T Ix) (index : Ix) : BullDag T Ix :=
  { g with leaves := insertSet g.leaves index }

/-- `BullDag::clean_leaf`. -/
def BullDag.clean_leaf (g : BullDag T Ix) (index : Ix) : BullDag T Ix :=
  if index ∈ g.leaves then
    match g.get_vertex index with
    | some vtx =>
      if !vtx.get_references.isEmpty then
        { g with leaves := g.leaves.erase index }
      else g
    | none => g
  else g

/-- `BullDag::get_leaves` (cloned snapshot). -/
def BullDag.get_leaves (g : BullDag T Ix) : List Ix := g.leaves

/-- `BullDag::n_leaves`. -/
def BullDag.n_leaves (g : BullDag T Ix) : Nat := g.leaves.length

/-- `BullDag::add_vertex`: classify into roots/leaves by current
neighbor-set emptiness, then insert (overwriting) by key. -/
def BullDag.add_vertex (g : BullDag T Ix) (vertex : Vertex T Ix) :
    BullDag T Ix :=
  let g1 := if vertex.get_sources.isEmpty then g.add_root vertex.get_index
            else g
  let g2 := if vertex.get_references.isEmpty then g1.add_leaf vertex.get_index
            else g1
  { g2 with vertices := insertVertexList g2.vertices vertex }

/-- `BullDag::add_vertices`. -/
def BullDag.add_vertices (g : BullDag T Ix) (vs : List (Vertex T Ix)) :
    BullDag T Ix :=
  vs.foldl BullDag.add_vertex g

/-- `BullDag::len`. -/
def BullDag.len (g : BullDag T Ix) : Nat := g.vertices.length

/-- `BullDag::is_empty`. -/
def BullDag.is_empty (g : BullDag T Ix) : Bool := decide (g.len = 0)

/-- `BullDag::n_edges`. -/
def BullDag.n_edges (g : BullDag T Ix) : Nat := g.edges.length

/-- The neighbor keys examined by one step of `get_sources` /
`get_references`: filter the edge set on the endpoint matching the target
in the queried direction, and project out the other endpoint. -/
def nbrs (g : BullDag T Ix) (dir : Direction) (target : Ix) : List Ix :=
  match dir with
  | .Source =>
    (g.edges.filter (fun e => decide (e.get_reference = target))).map
      Edge.get_source
  | .Reference =>
    (g.edges.filter (fun e => decide (e.get_source = target))).map
      Edge.get_reference

/-- The `for` loop body shared by `get_sources` and `get_references`:
iterate over the neighbor keys, recursing (via `rec`) into each neighbor
that exists in the vertex map.  `rec` is the recursive call one fuel level
down. -/
def walkList (g : BullDag T Ix) (rec : Ix → List Ix → Option (List Ix)) :
    List Ix → List Ix → Option (List Ix)
  | [], stack => some stack
  | n :: rest, stack =>
    match g.get_vertex n with
    | some vtx =>
      match rec vtx.get_index stack with
      | some st => walkList g rec rest st
      | none => none
    | none => walkList g rec rest stack

/-- `get_sources` (`dir = Source`) and `get_references`
(`dir = Reference`) from `src/graph.rs`, fuel-indexed: recurse into every
neighbor in the queried direction, then push the target's own key if not
already present. -/
def walk (g : BullDag T Ix) (dir : Direction) :
    Nat → Ix → List Ix → Option (List Ix)
  | 0, _, _ => none
  | fuel + 1, target, stack =>
    match walkList g (walk g dir fuel) (nbrs g dir target) stack with
    | some st => some (if target ∈ st then st else st ++ [target])
    | none => none

/-- Fuel used by the graph's own calls into the recursive walks; proved
sufficient whenever the committed edge set is acyclic. -/
def BullDag.traceFuel (g : BullDag T Ix) : Nat := g.vertices.length + 2

/-- `BullDag::trace`: dispatch on the direction. -/
def BullDag.trace (g : BullDag T Ix) (target : Vertex T Ix)
    (direction : Direction) : Option (List Ix) :=
  match direction with
  | .Source => walk g .Source g.traceFuel target.get_index []
  | .Reference => walk g .Reference g.traceFuel target.get_index []

/-- `BullDag::auto_source_cycle`. -/
def BullDag.auto_source_cycle (g : BullDag T Ix) : Bool :=
  decide (g.n_roots = 0) && !g.is_empty

/-- `BullDag::auto_ref_cycle`. -/
def BullDag.auto_ref_cycle (g : BullDag T Ix) : Bool :=
  decide (g.n_leaves = 0) && !g.is_empty

/-- `BullDag::check_cycles`, evaluated against the pre-insertion graph. -/
def BullDag.check_cycles (g : BullDag T Ix)
    (edge : Vertex T Ix × Vertex T Ix) : Option (GraphResult Ix) :=
  if g.auto_source_cycle || g.auto_ref_cycle then some (.Err .WouldCycle)
  else
    match g.trace edge.1 .Source with
    | none => none
    | some source_trace =>
      if edge.2.get_index ∈ source_trace then some (.Err .WouldCycle)
      else
        match g.trace edge.2 .Reference with
        | none => none
        | some ref_trace =>
          if edge.1.get_index ∈ ref_trace then some (.Err .WouldCycle)
          else some (.Ok .Ok)

/-- `BullDag::add_edge` from `src/graph.rs`: clone both submitted
vertices, absorb the derived edge into the clones, run the cycle check
against the pre-insertion graph, and only on success commit both vertex
updates (with leaf/root cleaning) and the edge. -/
def BullDag.add_edge (g : BullDag T Ix)
    (edge : Vertex T Ix × Vertex T Ix) : BullDag T Ix :=
  let e : Edge Ix := Edge.new edge.1.get_index edge.2.get_index
  let source := edge.1.add_edge e
  let reference := edge.2.add_edge e
  if isOkResult (g.check_cycles edge) then
    let g1 :=
      match g.get_vertex source.get_index with
      | some vtx =>
        ((g.add_vertex (vtx.add_edge e)).clean_leaf
          (vtx.add_edge e).get_index)
      | none => g.add_vertex source
    let g2 :=
      match g1.get_vertex reference.get_index with
      | some vtx =>
        ((g1.add_vertex (vtx.add_edge e)).clean_root
          (vtx.add_edge e).get_index)
      | none => g1.add_vertex reference
    { g2 with edges := insertSet g2.edges e }
  else g

/-- `BullDag::extend_from_edges`: for each pair, pre-absorb the edge into
transient clones (the `_src`/`_r` bindings, dropped immediately as in the
source), then delegate to `add_edge`. -/
def BullDag.extend_from_edges (g : BullDag T Ix)
    (edges : List (Vertex T Ix × Vertex T Ix)) : BullDag T Ix :=
  edges.foldl
    (fun g e =>
      let source := e.1.get_index
      let reference := e.2.get_index
      let _src : Vertex T Ix :=
        match g.get_vertex source with
        | some src => src.add_edge (Edge.new e.1.get_index e.2.get_index)
        | none => e.1.add_edge (Edge.new e.1.get_index e.2.get_index)
      let _r : Vertex T Ix :=
        match g.get_vertex reference with
        | some r => r.add_edge (Edge.new e.1.get_index e.2.get_index)
        | none => e.2.add_edge (Edge.new e.1.get_index e.2.get_index)
      g.add_edge e)
    g

/-- The `for` loop body of `dfs`: iterate the stored reference keys,
recursing into each one present in the vertex map. -/
def dfsList (g : BullDag T Ix)
    (rec : Vertex T Ix → List Ix → Option (List Ix)) :
    List Ix → List Ix → Option (List Ix)
  | [], stack => some stack
  | r :: rest, stack =>
    match g.get_vertex r with
    | some vtx =>
      match rec vtx stack with
      | some st => dfsList g rec rest st
      | none => none
    | none => dfsList g rec rest stack

/-- `BullDag::dfs`, fuel-indexed: post-order walk along the stored
reference sets, pushing the vertex key after all its references.  The
source's `visited` parameter is never read or written and is omitted; the
source's `GraphResult` return value is always `Ok` and is modelled by the
`some` layer (with `none` for fuel exhaustion). -/
def BullDag.dfs (g : BullDag T Ix) :
    Nat → Vertex T Ix → List Ix → Option (List Ix)
  | 0, _, _ => none
  | fuel + 1, vertex, stack =>
    match dfsList g (g.dfs fuel) vertex.get_references stack with
    | some st =>
      some (if vertex.get_index ∈ st then st else st ++ [vertex.get_index])
    | none => none

/-- The `for root in roots` loop of `topological_sort`. -/
def topoFold (g : BullDag T Ix) (fuel : Nat) :
    List Ix → List Ix → Option (List Ix)
  | [], stack => some stack
  | root :: rest, stack =>
    match g.get_vertex root with
    | some vtx =>
      match g.dfs fuel vtx stack with
      | some st => topoFold g fuel rest st
      | none => none
    | none => topoFold g fuel rest stack

/-- `BullDag::topological_sort`: fail if there are no roots or no leaves,
otherwise run `dfs` from every root and reverse the accumulated stack. -/
def BullDag.topological_sort (g : BullDag T Ix) : Option (GraphResult Ix) :=
  let roots := g.get_roots
  let leaves := g.get_leaves
  if roots.isEmpty then some (.Err .WouldCycle)
  else if leaves.isEmpty then some (.Err .WouldCycle)
  else
    match topoFold g g.traceFuel roots [] with
    | some stack => some (.Ok (.VecRes stack.reverse))
    | none => none

/-- One submission to any of the four public insertion entry points. -/
inductive Op (T Ix : Type) where
  | edge (p : Vertex T Ix × Vertex T Ix)
  | edges (ps : List (Vertex T Ix × Vertex T Ix))
  | vertex (v : Vertex T Ix)
  | vertices (vs : List (Vertex T Ix))

/-- Apply one insertion operation. -/
def applyOp (g : BullDag T Ix) : Op T Ix → BullDag T Ix
  | .edge p => g.add_edge p
  | .edges ps => g.extend_from_edges ps
  | .vertex v => g.add_vertex v
  | .vertices vs => g.add_vertices vs

/-- A vertex argument as produced by `Vertex::new`: empty neighbor sets. -/
def freshV (v : Vertex T Ix) : Prop := v.sources = [] ∧ v.references = []

/-- An operation whose directly inserted vertices (the `add_vertex` /
`add_vertices` arguments) are freshly constructed. -/
def freshOp : Op T Ix → Prop
  | .edge _ => True
  | .edges _ => True
  | .vertex v => freshV v
  | .vertices vs => ∀ v ∈ vs, freshV v

/-- An edge submission whose two vertex arguments are freshly
constructed. -/
def freshPair (p : Vertex T Ix × Vertex T Ix) : Prop :=
  freshV p.1 ∧ freshV p.2

/-- Root/leaf consistency: every stored vertex is in the root set exactly
when its sources set is empty, and in the leaf set exactly when its
references set is empty (the property of claim C3). -/
def RootLeafConsistent (g : BullDag T Ix) : Prop :=
  ∀ v ∈ g.vertices,
    (v.index ∈ g.roots ↔ v.sources = []) ∧
    (v.index ∈ g.leaves ↔ v.references = [])

/-- Auxiliary invariant carrying root/leaf consistency together with the
bookkeeping facts needed to push it through the operations. -/
structure RLInv (g : BullDag T Ix) : Prop where
  consistent : RootLeafConsistent g
  rootsKeys : ∀ k ∈ g.roots, ∃ v ∈ g.vertices, v.index = k
  leavesKeys : ∀ k ∈ g.leaves, ∃ v ∈ g.vertices, v.index = k
  rootsNodup : g.roots.Nodup
  leavesNodup : g.leaves.Nodup

/-- One directed arc of the committed edge set, as a relation on keys. -/
def edgeStep (edges : List (Edge Ix)) (a b : Ix) : Prop :=
  Edge.mk a b ∈ edges

/-- The committed edge set contains no directed path from a vertex back to
itself. -/
def Acyclic (edges : List (Edge Ix)) : Prop :=
  ∀ x, ¬ Relation.TransGen (edgeStep edges) x x

/-- One recursion step of the walk, as a relation on keys: `a` is a
neighbor of `b` in the queried direction. -/
def nbrRel (g : BullDag T Ix) (dir : Direction) (a b : Ix) : Prop :=
  a ∈ nbrs g dir b

/-- One recursion step actually taken by the walk: the neighbor must also
exist in the vertex map for the recursion to descend into it. -/
def nbrRelV (g : BullDag T Ix) (dir : Direction) (a b : Ix) : Prop :=
  a ∈ nbrs g dir b ∧ (g.get_vertex a).isSome

/-- The source-side vertex update of the commit branch of `add_edge`. -/
def commitSource (g : BullDag T Ix) (e : Edge Ix) (source : Vertex T Ix) :
    BullDag T Ix :=
  match g.get_vertex source.get_index with
  | some vtx =>
    ((g.add_vertex (vtx.add_edge e)).clean_leaf (vtx.add_edge e).get_index)
  | none => g.add_vertex source

/-- The reference-side vertex update of the commit branch of `add_edge`. -/
def commitReference (g1 : BullDag T Ix) (e : Edge Ix)
    (reference : Vertex T Ix) : BullDag T Ix :=
  match g1.get_vertex reference.get_index with
  | some vtx =>
    ((g1.add_vertex (vtx.add_edge e)).clean_root (vtx.add_edge e).get_index)
  | none => g1.add_vertex reference

/-- The state produced by the success branch of `add_edge` (the body of
`if self.check_cycles(edge).is_ok() { ... }`). -/
def commitEdge (g : BullDag T Ix) (edge : Vertex T Ix × Vertex T Ix) :
    BullDag T Ix :=
  let e : Edge Ix := Edge.new edge.1.get_index edge.2.get_index
  let g2 := commitReference (commitSource g e (edge.1.add_edge e)) e
    (edge.2.add_edge e)
  { g2 with edges := insertSet g2.edges e }

/-- Invariant of every graph reachable through the insertion API: the
committed edge set is acyclic and both endpoints of every committed edge
are present in the vertex map. -/
structure InvE (g : BullDag T Ix) : Prop where
  acyclic : Acyclic g.edges
  present : ∀ e ∈ g.edges,
    (g.get_vertex e.source).isSome ∧ (g.get_vertex e.reference).isSome

/-- Fresh vertex fixture over `Nat` keys used by the concrete examples. -/
def mkv (i : Nat) : Vertex Nat Nat := Vertex.new 0 i

/-- The 8 edge submissions of claim C1 (the
`test_add_cyclic_edge_fails` fixture, with `v1, ..., v7` as `1, ..., 7`). -/
def c1pairs : List (Vertex Nat Nat × Vertex Nat Nat) :=
  [(mkv 1, mkv 2), (mkv 3, mkv 1), (mkv 2, mkv 4), (mkv 3, mkv 4),
   (mkv 4, mkv 5), (mkv 5, mkv 6), (mkv 6, mkv 7), (mkv 6, mkv 1)]

/-- The 6 edge submissions over 5 distinct keys of claim C5 (the
`test_adding_edges_auto_adds_vertices` fixture, with `v1, ..., v5` as
`1, ..., 5`). -/
def c5pairs : List (Vertex Nat Nat × Vertex Nat Nat) :=
  [(mkv 1, mkv 2), (mkv 3, mkv 1), (mkv 3, mkv 2), (mkv 2, mkv 4),
   (mkv 2, mkv 5), (mkv 1, mkv 5)]

/-- Named-vertex fixture of the 5-vertex/6-edge topological-sort example
(the `test_get_topological_order` fixture). -/
def mks (d : Nat) (s : String) : Vertex Nat String := Vertex.new d s

/-- The 6 edge submissions of the 5-vertex/6-edge example of claim C4. -/
def c4pairs : List (Vertex Nat String × Vertex Nat String) :=
  [(mks 5 "source", mks 4 "reference"),
   (mks 3 "ultimate_source", mks 5 "source"),
   (mks 3 "ultimate_source", mks 4 "reference"),
   (mks 4 "reference", mks 2 "ref_reference"),
   (mks 4 "reference", mks 1 "new_reference"),
   (mks 5 "source", mks 1 "new_reference")]

/-- The first of the two orderings accepted by claim C4's example. -/
def c4opt1 : List String :=
  ["ultimate_source", "source", "reference", "new_reference",
   "ref_reference"]

/-- The second of the two orderings accepted by claim C4's example. -/
def c4opt2 : List String :=
  ["ultimate_source", "source", "reference", "ref_reference",
   "new_reference"]

/-- The operation sequence of the claim C3 counterexample: insert a fresh
vertex keyed 1, then overwrite it via `add_vertex` with a vertex (built
with the public `Vertex::new` and `Vertex::add_edge`) that already
carries a source. -/
def c3ops : List (Op Nat Nat) :=
  [.vertex (Vertex.new 0 1),
   .vertex ((Vertex.new 0 1).add_edge (Edge.new 2 1))]

/-- The state of the claim C4 counterexample: commit the edge `(1, 2)`,
then overwrite vertex 1 with a fresh vertex via `add_vertex`, wiping its
stored reference set while the committed edge persists. -/
def c4state : BullDag Nat Nat :=
  (BullDag.new.add_edge (mkv 1, mkv 2)).add_vertex (Vertex.new 0 1)

/-- Full invariant of graphs built purely by edge submissions with fresh
vertex arguments: acyclicity and endpoint presence, root/leaf
consistency, and alignment of the stored neighbor sets with the
committed edge set. -/
structure TInv (g : BullDag T Ix) : Prop where
  invE : InvE g
  rl : RLInv g
  alignRefs : ∀ v ∈ g.vertices, ∀ x,
    x ∈ v.references ↔ Edge.mk v.index x ∈ g.edges
  alignSrcs : ∀ v ∈ g.vertices, ∀ x,
    x ∈ v.sources ↔ Edge.mk x v.index ∈ g.edges

/-- `a` occurs at a strictly earlier position than `b` in `l`. -/
def listBefore (l : List Ix) (a b : Ix) : Prop :=
  ∃ i j, i < j ∧ l.get? i = some a ∧ l.get? j = some b

/-- Invariant of the `dfs` accumulator stack: every pushed key comes
after all of its committed-edge successors. -/
def stackOrdered (g : BullDag T Ix) (st : List Ix) : Prop :=
  ∀ a ∈ st, ∀ b, Edge.mk a b ∈ g.edges →
    b ∈ st ∧ st.indexOf b < st.indexOf a

/-- The contract of the recursive call of `dfs`: on a stored vertex and a
well-formed stack it extends the stack, keeps it duplicate-free and
ordered, pushes the vertex, and pushes everything reachable from it. -/
def DfsGood (g : BullDag T Ix)
    (rec : Vertex T Ix → List Ix → Option (List Ix)) : Prop :=
  ∀ v st out, g.get_vertex v.index = some v → st.Nodup →
    stackOrdered g st → rec v st = some out →
    (∃ ext, out = st ++ ext) ∧ out.Nodup ∧ stackOrdered g out ∧
    v.index ∈ out ∧
    (∀ b, Relation.ReflTransGen (edgeStep g.edges) v.index b → b ∈ out)

/-- One recursion step actually taken by `dfs`: from the stored vertex
keyed `b` into its stored reference `a`. -/
def dfsRelV (g : BullDag T Ix) (a b : Ix) : Prop :=
  (∃ vb, g.get_vertex b = some vb ∧ a ∈ vb.references) ∧
    (g.get_vertex a).isSome

end Bulldag

namespace Bulldag

variable {T Ix : Type} [DecidableEq Ix]

/-! ### Basic lemmas about the set and map models -/

theorem mem_insertSet {α : Type} [DecidableEq α] {l : List α} {x y : α} :
    y ∈ insertSet l x ↔ y ∈ l ∨ y = x := by
  unfold insertSet
  split
  · rename_i h
    constructor
    · exact Or.inl
    · rintro (hy | rfl)
      · exact hy
      · exact h
  · simp

theorem self_mem_insertSet {α : Type} [DecidableEq α] {l : List α} {x : α} :
    x ∈ insertSet l x := mem_insertSet.mpr (Or.inr rfl)

theorem mem_insertSet_of_mem {α : Type} [DecidableEq α] {l : List α} {x y : α}
    (h : y ∈ l) : y ∈ insertSet l x := mem_insertSet.mpr (Or.inl h)

theorem insertSet_eq_of_mem {α : Type} [DecidableEq α] {l : List α} {x : α}
    (h : x ∈ l) : insertSet l x = l := by
  unfold insertSet
  exact if_pos h

theorem nodup_insertSet {α : Type} [DecidableEq α] {l : List α} {x : α}
    (h : l.Nodup) : (insertSet l x).Nodup := by
  unfold insertSet
  split
  · exact h
  · rename_i hx
    refine List.nodup_append.mpr ⟨h, List.nodup_singleton x, ?_⟩
    intro a ha hb
    rw [List.mem_singleton] at hb
    subst hb
    exact hx ha

theorem length_insertSet_of_mem {α : Type} [DecidableEq α] {l : List α} {x : α}
    (h : x ∈ l) : (insertSet l x).length = l.length := by
  rw [insertSet_eq_of_mem h]

theorem get_vertex_index {g : BullDag T Ix} {k : Ix} {v : Vertex T Ix}
    (h : g.get_vertex k = some v) : v.index = k := by
  have := List.find?_some h
  simpa using this

theorem get_vertex_mem {g : BullDag T Ix} {k : Ix} {v : Vertex T Ix}
    (h : g.get_vertex k = some v) : v ∈ g.vertices :=
  List.mem_of_find?_eq_some h

theorem get_vertex_isSome_iff {g : BullDag T Ix} {k : Ix} :
    (g.get_vertex k).isSome ↔ ∃ v ∈ g.vertices, v.index = k := by
  unfold BullDag.get_vertex
  rw [List.find?_isSome]
  simp

theorem index_add_edge {v : Vertex T Ix} {e : Edge Ix} :
    (v.add_edge e).index = v.index := by
  unfold Vertex.add_edge Vertex.add_reference Vertex.add_source
  dsimp only
  split <;> split <;> rfl

theorem find?_insertVertexList_self (vs : List (Vertex T Ix))
    (v : Vertex T Ix) :
    (insertVertexList vs v).find? (fun w => decide (w.index = v.index)) =
      some v := by
  unfold insertVertexList
  split
  · rename_i hany
    induction vs with
    | nil => simp at hany
    | cons w t ih =>
      by_cases hw : w.index = v.index
      · simp [List.find?_cons, hw]
      · simp only [List.any_cons, Bool.or_eq_true, decide_eq_true_eq] at hany
        rcases hany with h | h
        · exact absurd h hw
        · rw [List.map_cons, if_neg hw, List.find?_cons]
          simp only [decide_eq_false hw]
          exact ih h
  · rename_i hany
    rw [List.find?_append]
    have hnone : vs.find? (fun w => decide (w.index = v.index)) = none := by
      rw [List.find?_eq_none]
      intro w hw
      simp only [decide_eq_true_eq]
      intro hcontra
      exact hany (List.any_eq_true.mpr ⟨w, hw, by simp [hcontra]⟩)
    rw [hnone]
    simp [List.find?_cons]

theorem find?_insertVertexList_ne (vs : List (Vertex T Ix))
    (v : Vertex T Ix) {k : Ix} (hk : k ≠ v.index) :
    (insertVertexList vs v).find? (fun w => decide (w.index = k)) =
      vs.find? (fun w => decide (w.index = k)) := by
  have hvk : ¬ v.index = k := fun h => hk h.symm
  unfold insertVertexList
  split
  · rename_i hany
    clear hany
    induction vs with
    | nil => rfl
    | cons w t ih =>
      by_cases hw : w.index = v.index
      · have hwk : ¬ w.index = k := by rw [hw]; exact hvk
        rw [List.map_cons, if_pos hw, List.find?_cons, List.find?_cons]
        simp only [decide_eq_false hvk, decide_eq_false hwk]
        exact ih
      · rw [List.map_cons, if_neg hw, List.find?_cons, List.find?_cons]
        cases hd : decide (w.index = k)
        · exact ih
        · rfl
  · rw [List.find?_append]
    have h1 : List.find? (fun w => decide (w.index = k)) [v] = none := by
      simp only [List.find?_cons, decide_eq_false hvk]
      rfl
    rw [h1]
    cases vs.find? (fun w => decide (w.index = k)) <;> rfl

/-! ### Component lemmas: which fields each helper touches -/

theorem add_root_vertices (g : BullDag T Ix) (i : Ix) :
    (g.add_root i).vertices = g.vertices := rfl

theorem add_root_edges (g : BullDag T Ix) (i : Ix) :
    (g.add_root i).edges = g.edges := rfl

theorem add_root_leaves (g : BullDag T Ix) (i : Ix) :
    (g.add_root i).leaves = g.leaves := rfl

theorem add_leaf_vertices (g : BullDag T Ix) (i : Ix) :
    (g.add_leaf i).vertices = g.vertices := rfl

theorem add_leaf_edges (g : BullDag T Ix) (i : Ix) :
    (g.add_leaf i).edges = g.edges := rfl

theorem add_leaf_roots (g : BullDag T Ix) (i : Ix) :
    (g.add_leaf i).roots = g.roots := rfl

theorem clean_root_vertices (g : BullDag T Ix) (i : Ix) :
    (g.clean_root i).vertices = g.vertices := by
  unfold BullDag.clean_root
  split
  · split
    · split <;> rfl
    · rfl
  · rfl

theorem clean_root_edges (g : BullDag T Ix) (i : Ix) :
    (g.clean_root i).edges = g.edges := by
  unfold BullDag.clean_root
  split
  · split
    · split <;> rfl
    · rfl
  · rfl

theorem clean_root_leaves (g : BullDag T Ix) (i : Ix) :
    (g.clean_root i).leaves = g.leaves := by
  unfold BullDag.clean_root
  split
  · split
    · split <;> rfl
    · rfl
  · rfl

theorem clean_leaf_vertices (g : BullDag T Ix) (i : Ix) :
    (g.clean_leaf i).vertices = g.vertices := by
  unfold BullDag.clean_leaf
  split
  · split
    · split <;> rfl
    · rfl
  · rfl

theorem clean_leaf_edges (g : BullDag T Ix) (i : Ix) :
    (g.clean_leaf i).edges = g.edges := by
  unfold BullDag.clean_leaf
  split
  · split
    · split <;> rfl
    · rfl
  · rfl

theorem clean_leaf_roots (g : BullDag T Ix) (i : Ix) :
    (g.clean_leaf i).roots = g.roots := by
  unfold BullDag.clean_leaf
  split
  · split
    · split <;> rfl
    · rfl
  · rfl

theorem add_vertex_vertices (g : BullDag T Ix) (v : Vertex T Ix) :
    (g.add_vertex v).vertices = insertVertexList g.vertices v := by
  unfold BullDag.add_vertex
  dsimp only
  split <;> split <;> rfl

theorem add_vertex_edges (g : BullDag T Ix) (v : Vertex T Ix) :
    (g.add_vertex v).edges = g.edges := by
  unfold BullDag.add_vertex
  dsimp only
  split <;> split <;> rfl

theorem get_vertex_clean_root (g : BullDag T Ix) (i k : Ix) :
    (g.clean_root i).get_vertex k = g.get_vertex k := by
  unfold BullDag.get_vertex
  rw [clean_root_vertices]

theorem get_vertex_clean_leaf (g : BullDag T Ix) (i k : Ix) :
    (g.clean_leaf i).get_vertex k = g.get_vertex k := by
  unfold BullDag.get_vertex
  rw [clean_leaf_vertices]

theorem get_vertex_add_vertex_self (g : BullDag T Ix) (v : Vertex T Ix) :
    (g.add_vertex v).get_vertex v.index = some v := by
  unfold BullDag.get_vertex
  rw [add_vertex_vertices]
  exact find?_insertVertexList_self g.vertices v

theorem get_vertex_add_vertex_ne (g : BullDag T Ix) (v : Vertex T Ix)
    {k : Ix} (hk : k ≠ v.index) :
    (g.add_vertex v).get_vertex k = g.get_vertex k := by
  unfold BullDag.get_vertex
  rw [add_vertex_vertices]
  exact find?_insertVertexList_ne g.vertices v hk

theorem get_vertex_add_vertex_isSome {g : BullDag T Ix} {v : Vertex T Ix}
    {k : Ix} (h : (g.get_vertex k).isSome) :
    ((g.add_vertex v).get_vertex k).isSome := by
  by_cases hk : k = v.index
  · subst hk
    rw [get_vertex_add_vertex_self]
    rfl
  · rw [get_vertex_add_vertex_ne g v hk]
    exact h

end Bulldag

namespace Bulldag

variable {T Ix : Type} [DecidableEq Ix]

/-! ### Lemmas about the recursive walks behind `trace` -/

theorem walkList_extends {g : BullDag T Ix}
    {rec : Ix → List Ix → Option (List Ix)}
    (hrec : ∀ t st out, rec t st = some out → ∃ ext, out = st ++ ext) :
    ∀ ns st out, walkList g rec ns st = some out → ∃ ext, out = st ++ ext := by
  intro ns
  induction ns with
  | nil =>
    intro st out h
    simp only [walkList, Option.some_inj] at h
    exact ⟨[], by rw [← h, List.append_nil]⟩
  | cons n rest ih =>
    intro st out h
    simp only [walkList] at h
    cases hv : g.get_vertex n with
    | none =>
      rw [hv] at h
      dsimp only at h
      exact ih st out h
    | some vtx =>
      rw [hv] at h
      dsimp only at h
      cases hr : rec vtx.get_index st with
      | none => rw [hr] at h; dsimp only at h; cases h
      | some st1 =>
        rw [hr] at h
        dsimp only at h
        obtain ⟨e1, rfl⟩ := hrec _ _ _ hr
        obtain ⟨e2, rfl⟩ := ih _ _ h
        exact ⟨e1 ++ e2, by rw [List.append_assoc]⟩

theorem walk_extends {g : BullDag T Ix} {dir : Direction} :
    ∀ fuel t st out, walk g dir fuel t st = some out →
      ∃ ext, out = st ++ ext := by
  intro fuel
  induction fuel with
  | zero => intro t st out h; simp [walk] at h
  | succ fuel ih =>
    intro t st out h
    simp only [walk] at h
    cases hw : walkList g (walk g dir fuel) (nbrs g dir t) st with
    | none => rw [hw] at h; dsimp only at h; cases h
    | some st1 =>
      rw [hw] at h
      dsimp only at h
      simp only [Option.some_inj] at h
      obtain ⟨e1, rfl⟩ := walkList_extends (fun a b c hh => ih a b c hh) _ _ _ hw
      by_cases ht : t ∈ st ++ e1
      · rw [if_pos ht] at h
        exact ⟨e1, h.symm⟩
      · rw [if_neg ht] at h
        exact ⟨e1 ++ [t], by rw [← h, List.append_assoc]⟩

theorem walk_self_mem {g : BullDag T Ix} {dir : Direction} {fuel : Nat}
    {t : Ix} {st out : List Ix} (h : walk g dir fuel t st = some out) :
    t ∈ out := by
  cases fuel with
  | zero => simp [walk] at h
  | succ fuel =>
    simp only [walk] at h
    cases hw : walkList g (walk g dir fuel) (nbrs g dir t) st with
    | none => rw [hw] at h; dsimp only at h; cases h
    | some st1 =>
      rw [hw] at h
      dsimp only at h
      simp only [Option.some_inj] at h
      by_cases ht : t ∈ st1
      · rw [if_pos ht] at h; rw [← h]; exact ht
      · rw [if_neg ht] at h; rw [← h]
        exact List.mem_append_right _ (List.mem_singleton_self t)

theorem walkList_processes {g : BullDag T Ix}
    {rec : Ix → List Ix → Option (List Ix)}
    (hrec : ∀ t st out, rec t st = some out → ∃ ext, out = st ++ ext) :
    ∀ ns st out, walkList g rec ns st = some out →
      ∀ n ∈ ns, (g.get_vertex n).isSome →
        ∃ st1 out1, rec n st1 = some out1 ∧ ∃ ext, out = out1 ++ ext := by
  intro ns
  induction ns with
  | nil => intro st out h n hn; cases hn
  | cons m rest ih =>
    intro st out h n hn hsome
    simp only [walkList] at h
    rcases List.mem_cons.mp hn with rfl | hn
    · obtain ⟨vtx, hv⟩ := Option.isSome_iff_exists.mp hsome
      rw [hv] at h
      dsimp only at h
      cases hr : rec vtx.get_index st with
      | none => rw [hr] at h; dsimp only at h; cases h
      | some st1 =>
        rw [hr] at h
        dsimp only at h
        have hidx : vtx.get_index = n := get_vertex_index hv
        obtain ⟨ext, rfl⟩ := walkList_extends hrec _ _ _ h
        exact ⟨st, st1, by rw [← hidx]; exact hr, ext, rfl⟩
    · cases hv : g.get_vertex m with
      | none =>
        rw [hv] at h
        dsimp only at h
        exact ih st out h n hn hsome
      | some vtx =>
        rw [hv] at h
        dsimp only at h
        cases hr : rec vtx.get_index st with
        | none => rw [hr] at h; dsimp only at h; cases h
        | some st1 =>
          rw [hr] at h
          dsimp only at h
          exact ih st1 out h n hn hsome

theorem mem_nbrs_source {g : BullDag T Ix} {t x : Ix} :
    x ∈ nbrs g .Source t ↔ Edge.mk x t ∈ g.edges := by
  simp only [nbrs, List.mem_map, List.mem_filter, decide_eq_true_eq,
    Edge.get_source, Edge.get_reference]
  constructor
  · rintro ⟨e, ⟨he, hr⟩, rfl⟩
    cases e
    simp only at hr
    rw [hr] at he
    exact he
  · intro h
    exact ⟨⟨x, t⟩, ⟨h, rfl⟩, rfl⟩

theorem mem_nbrs_reference {g : BullDag T Ix} {t x : Ix} :
    x ∈ nbrs g .Reference t ↔ Edge.mk t x ∈ g.edges := by
  simp only [nbrs, List.mem_map, List.mem_filter, decide_eq_true_eq,
    Edge.get_source, Edge.get_reference]
  constructor
  · rintro ⟨e, ⟨he, hr⟩, rfl⟩
    cases e
    simp only at hr
    rw [hr] at he
    exact he
  · intro h
    exact ⟨⟨t, x⟩, ⟨h, rfl⟩, rfl⟩

theorem walk_complete {g : BullDag T Ix} {dir : Direction}
    (hpres : ∀ a b, nbrRel g dir a b → (g.get_vertex a).isSome) :
    ∀ fuel t st out, walk g dir fuel t st = some out →
      ∀ x, Relation.ReflTransGen (nbrRel g dir) x t → x ∈ out := by
  intro fuel
  induction fuel with
  | zero => intro t st out h; simp [walk] at h
  | succ fuel ih =>
    intro t st out h x hx
    rcases Relation.ReflTransGen.cases_tail hx with heq | ⟨y, hxy, hyt⟩
    · subst heq
      exact walk_self_mem h
    · simp only [walk] at h
      cases hw : walkList g (walk g dir fuel) (nbrs g dir t) st with
      | none => rw [hw] at h; dsimp only at h; cases h
      | some st1 =>
        rw [hw] at h
        dsimp only at h
        simp only [Option.some_inj] at h
        have hy : y ∈ nbrs g dir t := hyt
        have hysome : (g.get_vertex y).isSome := hpres y t hyt
        obtain ⟨st2, out2, hr, ext, heq2⟩ :=
          walkList_processes (fun a b c hh => walk_extends fuel a b c hh) _ _ _ hw
            y hy hysome
        have hxout2 : x ∈ out2 := ih y st2 out2 hr x hxy
        have hxst1 : x ∈ st1 := by rw [heq2]; exact List.mem_append_left _ hxout2
        rw [← h]
        by_cases ht : t ∈ st1
        · rw [if_pos ht]; exact hxst1
        · rw [if_neg ht]; exact List.mem_append_left _ hxst1

theorem walkList_isSome {g : BullDag T Ix}
    {rec : Ix → List Ix → Option (List Ix)} :
    ∀ ns st,
      (∀ n ∈ ns, (g.get_vertex n).isSome → ∀ st2, (rec n st2).isSome) →
      (walkList g rec ns st).isSome := by
  intro ns
  induction ns with
  | nil => intro st _; rfl
  | cons n rest ih =>
    intro st hall
    simp only [walkList]
    cases hv : g.get_vertex n with
    | none =>
      dsimp only
      exact ih st (fun m hm => hall m (List.mem_cons_of_mem _ hm))
    | some vtx =>
      dsimp only
      have hidx : vtx.get_index = n := get_vertex_index hv
      have hsome : (rec vtx.get_index st).isSome := by
        rw [hidx]
        exact hall n (List.mem_cons_self n rest) (by rw [hv]; rfl) st
      obtain ⟨st1, hst1⟩ := Option.isSome_iff_exists.mp hsome
      rw [hst1]
      dsimp only
      exact ih st1 (fun m hm => hall m (List.mem_cons_of_mem _ hm))

theorem walk_isSome {g : BullDag T Ix} {dir : Direction}
    (hacyc : ∀ x, ¬ Relation.TransGen (nbrRelV g dir) x x) :
    ∀ fuel (A : Finset Ix) t st,
      (∀ x, Relation.ReflTransGen (nbrRelV g dir) x t → x ∈ A) →
      A.card < fuel → (walk g dir fuel t st).isSome := by
  intro fuel
  induction fuel with
  | zero => intro A t st hA hcard; omega
  | succ fuel ih =>
    intro A t st hA hcard
    simp only [walk]
    have hsome : (walkList g (walk g dir fuel) (nbrs g dir t) st).isSome := by
      apply walkList_isSome
      intro n hn hget st2
      apply ih (A.erase t) n st2
      · intro x hx
        have hstep : nbrRelV g dir n t := ⟨hn, hget⟩
        have hxA : x ∈ A := hA x (hx.tail hstep)
        have hxt : x ≠ t := by
          rintro rfl
          exact hacyc _ (Relation.TransGen.tail' hx hstep)
        exact Finset.mem_erase.mpr ⟨hxt, hxA⟩
      · have htA : t ∈ A := hA t .refl
        have := Finset.card_erase_of_mem htA
        have hpos : 0 < A.card := Finset.card_pos.mpr ⟨t, htA⟩
        omega
    obtain ⟨st1, hst1⟩ := Option.isSome_iff_exists.mp hsome
    rw [hst1]
    rfl

end Bulldag

namespace Bulldag

variable {T Ix : Type} [DecidableEq Ix]

/-! ### The commit branch of `add_edge` -/

theorem add_edge_of_ok {g : BullDag T Ix} {p : Vertex T Ix × Vertex T Ix}
    (h : isOkResult (g.check_cycles p) = true) :
    g.add_edge p = commitEdge g p := by
  unfold BullDag.add_edge commitEdge commitSource commitReference
  rw [if_pos h]

theorem add_edge_of_not_ok {g : BullDag T Ix} {p : Vertex T Ix × Vertex T Ix}
    (h : isOkResult (g.check_cycles p) = false) :
    g.add_edge p = g := by
  unfold BullDag.add_edge
  rw [if_neg]
  rw [h]
  exact Bool.false_ne_true

theorem commitSource_edges (g : BullDag T Ix) (e : Edge Ix)
    (w : Vertex T Ix) : (commitSource g e w).edges = g.edges := by
  unfold commitSource
  cases g.get_vertex w.get_index with
  | some vtx => rw [clean_leaf_edges, add_vertex_edges]
  | none => rw [add_vertex_edges]

theorem commitReference_edges (g : BullDag T Ix) (e : Edge Ix)
    (w : Vertex T Ix) : (commitReference g e w).edges = g.edges := by
  unfold commitReference
  cases g.get_vertex w.get_index with
  | some vtx => rw [clean_root_edges, add_vertex_edges]
  | none => rw [add_vertex_edges]

theorem commitEdge_edges (g : BullDag T Ix) (p : Vertex T Ix × Vertex T Ix) :
    (commitEdge g p).edges =
      insertSet g.edges (Edge.new p.1.get_index p.2.get_index) := by
  unfold commitEdge
  dsimp only
  rw [commitReference_edges, commitSource_edges]

theorem commitSource_get_vertex_isSome {g : BullDag T Ix} {e : Edge Ix}
    {w : Vertex T Ix} {k : Ix} (h : (g.get_vertex k).isSome) :
    ((commitSource g e w).get_vertex k).isSome := by
  unfold commitSource
  cases g.get_vertex w.get_index with
  | some vtx =>
    rw [get_vertex_clean_leaf]
    exact get_vertex_add_vertex_isSome h
  | none => exact get_vertex_add_vertex_isSome h

theorem commitReference_get_vertex_isSome {g : BullDag T Ix} {e : Edge Ix}
    {w : Vertex T Ix} {k : Ix} (h : (g.get_vertex k).isSome) :
    ((commitReference g e w).get_vertex k).isSome := by
  unfold commitReference
  cases g.get_vertex w.get_index with
  | some vtx =>
    rw [get_vertex_clean_root]
    exact get_vertex_add_vertex_isSome h
  | none => exact get_vertex_add_vertex_isSome h

theorem commitSource_self_isSome (g : BullDag T Ix) (e : Edge Ix)
    (w : Vertex T Ix) :
    ((commitSource g e w).get_vertex w.get_index).isSome := by
  unfold commitSource
  cases hv : g.get_vertex w.get_index with
  | some vtx =>
    rw [get_vertex_clean_leaf]
    have hidx : (vtx.add_edge e).index = w.get_index := by
      rw [index_add_edge]
      exact get_vertex_index hv
    rw [← hidx, get_vertex_add_vertex_self]
    rfl
  | none =>
    have : w.get_index = w.index := rfl
    rw [this, get_vertex_add_vertex_self]
    rfl

theorem commitReference_self_isSome (g : BullDag T Ix) (e : Edge Ix)
    (w : Vertex T Ix) :
    ((commitReference g e w).get_vertex w.get_index).isSome := by
  unfold commitReference
  cases hv : g.get_vertex w.get_index with
  | some vtx =>
    rw [get_vertex_clean_root]
    have hidx : (vtx.add_edge e).index = w.get_index := by
      rw [index_add_edge]
      exact get_vertex_index hv
    rw [← hidx]
    rw [get_vertex_add_vertex_self]
    rfl
  | none =>
    have : w.get_index = w.index := rfl
    rw [this, get_vertex_add_vertex_self]
    rfl

theorem get_vertex_set_edges (g : BullDag T Ix) (es : List (Edge Ix))
    (k : Ix) :
    (BullDag.mk g.roots g.leaves g.vertices es).get_vertex k =
      g.get_vertex k := rfl

theorem commitEdge_get_vertex_isSome {g : BullDag T Ix}
    {p : Vertex T Ix × Vertex T Ix} {k : Ix}
    (h : (g.get_vertex k).isSome) :
    ((commitEdge g p).get_vertex k).isSome := by
  unfold commitEdge
  dsimp only
  exact commitReference_get_vertex_isSome (commitSource_get_vertex_isSome h)

theorem index_add_edge_get {v : Vertex T Ix} {e : Edge Ix} :
    (v.add_edge e).get_index = v.get_index := index_add_edge

theorem commitEdge_source_isSome (g : BullDag T Ix)
    (p : Vertex T Ix × Vertex T Ix) :
    ((commitEdge g p).get_vertex p.1.get_index).isSome := by
  unfold commitEdge
  dsimp only
  apply commitReference_get_vertex_isSome
  have := commitSource_self_isSome g (Edge.new p.1.get_index p.2.get_index)
    (p.1.add_edge (Edge.new p.1.get_index p.2.get_index))
  rw [index_add_edge_get] at this
  exact this

theorem commitEdge_reference_isSome (g : BullDag T Ix)
    (p : Vertex T Ix × Vertex T Ix) :
    ((commitEdge g p).get_vertex p.2.get_index).isSome := by
  unfold commitEdge
  dsimp only
  have := commitReference_self_isSome
    (commitSource g (Edge.new p.1.get_index p.2.get_index)
      (p.1.add_edge (Edge.new p.1.get_index p.2.get_index)))
    (Edge.new p.1.get_index p.2.get_index)
    (p.2.add_edge (Edge.new p.1.get_index p.2.get_index))
  rw [index_add_edge_get] at this
  exact this

end Bulldag

namespace Bulldag

variable {T Ix : Type} [DecidableEq Ix]

/-! ### Acyclicity is preserved by a checked insertion -/

theorem edgeStep_insertSet {edges : List (Edge Ix)} {e : Edge Ix} {a b : Ix} :
    edgeStep (insertSet edges e) a b ↔
      edgeStep edges a b ∨ (a = e.source ∧ b = e.reference) := by
  unfold edgeStep
  rw [mem_insertSet]
  constructor
  · rintro (h | h)
    · exact Or.inl h
    · cases e
      injection h with h1 h2
      exact Or.inr ⟨h1, h2⟩
  · rintro (h | ⟨rfl, rfl⟩)
    · exact Or.inl h
    · exact Or.inr rfl

theorem rtg_insertSet {edges : List (Edge Ix)} {e : Edge Ix} {a b : Ix}
    (h : Relation.ReflTransGen (edgeStep (insertSet edges e)) a b) :
    Relation.ReflTransGen (edgeStep edges) a b ∨
      (Relation.ReflTransGen (edgeStep edges) a e.source ∧
       Relation.ReflTransGen (edgeStep edges) e.reference b) := by
  induction h using Relation.ReflTransGen.head_induction_on with
  | refl => exact Or.inl .refl
  | head hstep _ ih =>
    rcases edgeStep_insertSet.mp hstep with hold | ⟨rfl, rfl⟩
    · rcases ih with h1 | ⟨h1, h2⟩
      · exact Or.inl (h1.head hold)
      · exact Or.inr ⟨h1.head hold, h2⟩
    · rcases ih with h1 | ⟨_, h2⟩
      · exact Or.inr ⟨.refl, h1⟩
      · exact Or.inr ⟨.refl, h2⟩

theorem acyclic_insertSet {edges : List (Edge Ix)} {e : Edge Ix}
    (hacyc : Acyclic edges)
    (hnp : ¬ Relation.ReflTransGen (edgeStep edges) e.reference e.source) :
    Acyclic (insertSet edges e) := by
  intro x hx
  rcases Relation.TransGen.head'_iff.mp hx with ⟨y, hxy, hyx⟩
  rcases edgeStep_insertSet.mp hxy with hold | ⟨rfl, rfl⟩
  · rcases rtg_insertSet hyx with hyxo | ⟨hys, hrx⟩
    · exact hacyc x (Relation.TransGen.head' hold hyxo)
    · exact hnp (hrx.trans (hys.head hold))
  · rcases rtg_insertSet hyx with h1 | ⟨h1, _⟩
    · exact hnp h1
    · exact hnp h1

/-! ### The graph invariant maintained by edge submission -/

theorem invE_new : InvE ((BullDag.new : BullDag T Ix)) := by
  constructor
  · intro x hx
    rcases Relation.TransGen.head'_iff.mp hx with ⟨y, hxy, _⟩
    cases hxy
  · intro e he
    cases he

/-- If the cycle check passes, there is no committed path from the
candidate reference back to the candidate source. -/
theorem check_ok_not_reach {g : BullDag T Ix} {p : Vertex T Ix × Vertex T Ix}
    (hinv : InvE g) (h : isOkResult (g.check_cycles p) = true) :
    ¬ Relation.ReflTransGen (edgeStep g.edges) p.2.get_index
      p.1.get_index := by
  intro hreach
  unfold BullDag.check_cycles at h
  split at h
  · simp [isOkResult] at h
  · revert h
    cases htr : g.trace p.1 .Source with
    | none => intro h; simp [isOkResult] at h
    | some source_trace =>
      intro h
      dsimp only at h
      by_cases hmem : p.2.get_index ∈ source_trace
      · rw [if_pos hmem] at h
        simp [isOkResult] at h
      · apply hmem
        unfold BullDag.trace at htr
        have hpres : ∀ a b, nbrRel g .Source a b →
            (g.get_vertex a).isSome := by
          intro a b hab
          have : Edge.mk a b ∈ g.edges := mem_nbrs_source.mp hab
          exact (hinv.present _ this).1
        apply walk_complete hpres _ _ _ _ htr
        apply Relation.ReflTransGen.mono (r := edgeStep g.edges)
        · intro a b hab
          exact mem_nbrs_source.mpr hab
        · exact hreach

theorem invE_add_edge {g : BullDag T Ix} {p : Vertex T Ix × Vertex T Ix}
    (hinv : InvE g) : InvE (g.add_edge p) := by
  cases hok : isOkResult (g.check_cycles p) with
  | false => rw [add_edge_of_not_ok hok]; exact hinv
  | true =>
    rw [add_edge_of_ok hok]
    constructor
    · rw [commitEdge_edges]
      exact acyclic_insertSet hinv.acyclic (check_ok_not_reach hinv hok)
    · intro e he
      rw [commitEdge_edges] at he
      rcases mem_insertSet.mp he with hold | rfl
      · obtain ⟨h1, h2⟩ := hinv.present e hold
        exact ⟨commitEdge_get_vertex_isSome h1,
          commitEdge_get_vertex_isSome h2⟩
      · exact ⟨commitEdge_source_isSome g p, commitEdge_reference_isSome g p⟩

theorem invE_foldl {g : BullDag T Ix} (hinv : InvE g)
    (ps : List (Vertex T Ix × Vertex T Ix)) :
    InvE (ps.foldl BullDag.add_edge g) := by
  induction ps generalizing g with
  | nil => exact hinv
  | cons p rest ih =>
    rw [List.foldl_cons]
    exact ih (invE_add_edge hinv)

/-- `extend_from_edges` is extensionally the fold of `add_edge`: the
transient pre-absorption into clones has no observable effect. -/
theorem extend_eq_foldl (g : BullDag T Ix)
    (ps : List (Vertex T Ix × Vertex T Ix)) :
    g.extend_from_edges ps = ps.foldl BullDag.add_edge g := rfl

end Bulldag

namespace Bulldag

variable {T Ix : Type} [DecidableEq Ix]

/-! ### Claim theorems (first group) -/

/-- C1: for every sequence of edge submissions via `add_edge` (or
`extend_from_edges`) starting from a new `BullDag`, the committed edge set
never contains a directed path from a vertex back to itself; in
particular, submitting the 8 edges
`(v1,v2),(v3,v1),(v2,v4),(v3,v4),(v4,v5),(v5,v6),(v6,v7),(v6,v1)` in that
order yields exactly 7 accepted edges, the 8th being dropped. -/
theorem claim1_acyclicity :
    (∀ (T Ix : Type) [DecidableEq Ix]
      (ps : List (Vertex T Ix × Vertex T Ix)),
      Acyclic ((ps.foldl BullDag.add_edge BullDag.new).edges) ∧
      Acyclic ((BullDag.new.extend_from_edges ps).edges)) ∧
    (BullDag.new.extend_from_edges c1pairs).n_edges = 7 := by
  constructor
  · intro T Ix _ ps
    refine ⟨(invE_foldl invE_new ps).acyclic, ?_⟩
    rw [extend_eq_foldl]
    exact (invE_foldl invE_new ps).acyclic
  · decide

/-- C2: whenever the cycle check rejects a candidate edge, `add_edge`
leaves the entire graph state unchanged and surfaces no error; in
particular `n_edges` does not increase. -/
theorem claim2_silent_drop : ∀ (T Ix : Type) [DecidableEq Ix]
    (g : BullDag T Ix) (p : Vertex T Ix × Vertex T Ix),
    g.check_cycles p = some (.Err .WouldCycle) →
    g.add_edge p = g ∧ (g.add_edge p).n_edges = g.n_edges := by
  intro T Ix _ g p h
  have hok : isOkResult (g.check_cycles p) = false := by rw [h]; rfl
  have heq := add_edge_of_not_ok hok
  exact ⟨heq, by rw [heq]⟩

/-- Witness for C2 at a concrete rejected submission (a self-loop on the
empty graph). -/
theorem claim2_witness :
    (((BullDag.new : BullDag Nat Nat)).add_edge
        (Vertex.new 0 1, Vertex.new 0 1) = BullDag.new) ∧
    (((BullDag.new : BullDag Nat Nat)).add_edge
        (Vertex.new 0 1, Vertex.new 0 1)).n_edges =
      ((BullDag.new : BullDag Nat Nat)).n_edges :=
  claim2_silent_drop Nat Nat BullDag.new (Vertex.new 0 1, Vertex.new 0 1)
    (by decide)

/-- C5: every committed edge's endpoints are keys present in the vertex
map (auto-created on first reference); concretely, the 6 pairs over 5
distinct keys yield `len() = 5` and `n_edges() = 6`. -/
theorem claim5_auto_vertex :
    (∀ (T Ix : Type) [DecidableEq Ix]
      (ps : List (Vertex T Ix × Vertex T Ix)) (e : Edge Ix),
      e ∈ (ps.foldl BullDag.add_edge BullDag.new).edges →
      ((ps.foldl BullDag.add_edge BullDag.new).get_vertex e.source).isSome ∧
      ((ps.foldl BullDag.add_edge BullDag.new).get_vertex
        e.reference).isSome) ∧
    (BullDag.new.extend_from_edges c5pairs).len = 5 ∧
    (BullDag.new.extend_from_edges c5pairs).n_edges = 6 := by
  refine ⟨?_, by decide, by decide⟩
  intro T Ix _ ps e he
  exact (invE_foldl invE_new ps).present e he

/-- Witness for C5 at a concrete committed edge of the example. -/
theorem claim5_witness :
    ((c5pairs.foldl BullDag.add_edge BullDag.new).get_vertex
      (Edge.new (1 : Nat) 2).source).isSome ∧
    ((c5pairs.foldl BullDag.add_edge BullDag.new).get_vertex
      (Edge.new (1 : Nat) 2).reference).isSome :=
  claim5_auto_vertex.1 Nat Nat c5pairs (Edge.new 1 2) (by decide)

/-- C7: on a non-empty graph with zero roots or zero leaves the cycle
check rejects every candidate outright and `add_edge` commits nothing; on
an empty graph the guard does not fire and the first submitted edge can
be accepted. -/
theorem claim7_degenerate_guard :
    (∀ (T Ix : Type) [DecidableEq Ix] (g : BullDag T Ix)
      (p : Vertex T Ix × Vertex T Ix), g.len ≠ 0 →
      (g.n_roots = 0 ∨ g.n_leaves = 0) →
      g.check_cycles p = some (.Err .WouldCycle) ∧ g.add_edge p = g) ∧
    (∀ (T Ix : Type) [DecidableEq Ix] (g : BullDag T Ix), g.len = 0 →
      g.auto_source_cycle = false ∧ g.auto_ref_cycle = false) ∧
    (((BullDag.new : BullDag Nat Nat)).add_edge
      (Vertex.new 0 1, Vertex.new 0 2)).n_edges = 1 := by
  refine ⟨?_, ?_, by decide⟩
  · intro T Ix _ g p hne hz
    have hg : (g.auto_source_cycle || g.auto_ref_cycle) = true := by
      have hie : g.is_empty = false := by
        simp [BullDag.is_empty, hne]
      rcases hz with hz | hz
      · have : g.auto_source_cycle = true := by
          simp [BullDag.auto_source_cycle, hz, hie]
        simp [this]
      · have : g.auto_ref_cycle = true := by
          simp [BullDag.auto_ref_cycle, hz, hie]
        simp [this]
    have hchk : g.check_cycles p = some (.Err .WouldCycle) := by
      unfold BullDag.check_cycles
      rw [if_pos hg]
    refine ⟨hchk, ?_⟩
    apply add_edge_of_not_ok
    rw [hchk]
    rfl
  · intro T Ix _ g h
    have hie : g.is_empty = true := by
      simp [BullDag.is_empty, h]
    constructor
    · simp [BullDag.auto_source_cycle, hie]
    · simp [BullDag.auto_ref_cycle, hie]

/-- Witness for C7 at a concrete degenerate state (a non-empty graph
whose root set is empty) and a concrete empty graph. -/
theorem claim7_witness :
    ((BullDag.mk [] [1] [Vertex.new 0 1] [] : BullDag Nat Nat).check_cycles
        (Vertex.new 0 2, Vertex.new 0 3) = some (.Err .WouldCycle) ∧
      (BullDag.mk [] [1] [Vertex.new 0 1] [] : BullDag Nat Nat).add_edge
        (Vertex.new 0 2, Vertex.new 0 3) =
        BullDag.mk [] [1] [Vertex.new 0 1] []) ∧
    (((BullDag.new : BullDag Nat Nat)).auto_source_cycle = false ∧
      ((BullDag.new : BullDag Nat Nat)).auto_ref_cycle = false) :=
  ⟨claim7_degenerate_guard.1 Nat Nat _ _ (by decide) (by decide),
   claim7_degenerate_guard.2.1 Nat Nat BullDag.new (by decide)⟩

/-- C8: `extend_from_edges` produces exactly the same final graph state
as folding `add_edge` over the pairs in order; the per-pair pre-absorption
into transient clones has no observable effect. -/
theorem claim8_extend_refines_foldl : ∀ (T Ix : Type) [DecidableEq Ix]
    (g : BullDag T Ix) (ps : List (Vertex T Ix × Vertex T Ix)),
    g.extend_from_edges ps = ps.foldl BullDag.add_edge g := by
  intro T Ix _ g ps
  exact extend_eq_foldl g ps

/-- C10: a submission whose source and reference share one index (a
self-loop) is always rejected by the cycle check, and `add_edge` leaves
the graph unchanged, on every graph state including the empty one. -/
theorem claim10_self_loop : ∀ (T Ix : Type) [DecidableEq Ix]
    (g : BullDag T Ix) (p : Vertex T Ix × Vertex T Ix),
    p.1.get_index = p.2.get_index →
    isOkResult (g.check_cycles p) = false ∧ g.add_edge p = g := by
  intro T Ix _ g p hp
  have hok : isOkResult (g.check_cycles p) = false := by
    unfold BullDag.check_cycles
    split
    · rfl
    · cases htr : g.trace p.1 .Source with
      | none => rfl
      | some st =>
        dsimp only
        have hmem : p.2.get_index ∈ st := by
          rw [← hp]
          unfold BullDag.trace at htr
          exact walk_self_mem htr
        rw [if_pos hmem]
        rfl
  exact ⟨hok, add_edge_of_not_ok hok⟩

/-- Witness for C10 at a concrete self-loop submission on a non-empty
graph. -/
theorem claim10_witness :
    isOkResult ((BullDag.new.add_edge (mkv 1, mkv 2)).check_cycles
      (mkv 3, mkv 3)) = false ∧
    (BullDag.new.add_edge (mkv 1, mkv 2)).add_edge (mkv 3, mkv 3) =
      BullDag.new.add_edge (mkv 1, mkv 2) :=
  claim10_self_loop Nat Nat (BullDag.new.add_edge (mkv 1, mkv 2))
    (mkv 3, mkv 3) (by decide)

end Bulldag

namespace Bulldag

variable {T Ix : Type} [DecidableEq Ix]

/-! ### Termination of the trace on acyclic graphs (claim C9) -/

theorem nbrRelV_source_sub {g : BullDag T Ix} {a b : Ix}
    (h : nbrRelV g .Source a b) : edgeStep g.edges a b :=
  mem_nbrs_source.mp h.1

theorem nbrRelV_reference_sub {g : BullDag T Ix} {a b : Ix}
    (h : nbrRelV g .Reference a b) : edgeStep g.edges b a :=
  mem_nbrs_reference.mp h.1

theorem nbrRelV_acyclic {g : BullDag T Ix} (h : Acyclic g.edges)
    (dir : Direction) :
    ∀ x, ¬ Relation.TransGen (nbrRelV g dir) x x := by
  intro x hx
  cases dir with
  | Source =>
    exact h x (Relation.TransGen.mono
      (fun a b hab => nbrRelV_source_sub hab) hx)
  | Reference =>
    have hsw : Relation.TransGen (Function.swap (edgeStep g.edges)) x x :=
      Relation.TransGen.mono (fun a b hab => nbrRelV_reference_sub hab) hx
    exact h x (Relation.transGen_swap.mp hsw)

theorem walk_traceFuel_isSome {g : BullDag T Ix} (h : Acyclic g.edges)
    (dir : Direction) (t : Ix) :
    (walk g dir g.traceFuel t []).isSome := by
  apply walk_isSome (nbrRelV_acyclic h dir) g.traceFuel
    (insert t (g.vertices.map Vertex.index).toFinset) t []
  · intro x hx
    rcases Relation.ReflTransGen.cases_head hx with rfl | ⟨c, hxc, _⟩
    · exact Finset.mem_insert_self _ _
    · have hsome := hxc.2
      rw [get_vertex_isSome_iff] at hsome
      obtain ⟨v, hv, hvi⟩ := hsome
      apply Finset.mem_insert_of_mem
      rw [List.mem_toFinset]
      exact List.mem_map.mpr ⟨v, hv, hvi⟩
  · have h1 := Finset.card_insert_le t (g.vertices.map Vertex.index).toFinset
    have h2 := List.toFinset_card_le (g.vertices.map Vertex.index)
    have h3 : (g.vertices.map Vertex.index).length = g.vertices.length :=
      List.length_map _ _
    unfold BullDag.traceFuel
    omega

theorem trace_isSome {g : BullDag T Ix} (h : Acyclic g.edges)
    (target : Vertex T Ix) (dir : Direction) :
    (g.trace target dir).isSome := by
  cases dir with
  | Source => exact walk_traceFuel_isSome h .Source target.get_index
  | Reference => exact walk_traceFuel_isSome h .Reference target.get_index

/-! ### Idempotence machinery (claim C6) -/

theorem insertSet_idem {α : Type} [DecidableEq α] (l : List α) (x : α) :
    insertSet (insertSet l x) x = insertSet l x :=
  insertSet_eq_of_mem self_mem_insertSet

theorem add_edge_idem (v : Vertex T Ix) (e : Edge Ix) :
    (v.add_edge e).add_edge e = v.add_edge e := by
  unfold Vertex.add_edge Vertex.add_reference Vertex.add_source
  dsimp only
  by_cases hs : e.get_source = v.index <;>
    by_cases hr : e.get_reference = v.index <;>
    simp [hs, hr, insertSet_idem]

theorem self_loop_not_ok {g : BullDag T Ix} {p : Vertex T Ix × Vertex T Ix}
    (hp : p.1.get_index = p.2.get_index) :
    isOkResult (g.check_cycles p) = false := by
  unfold BullDag.check_cycles
  split
  · rfl
  · cases htr : g.trace p.1 .Source with
    | none => rfl
    | some st =>
      dsimp only
      have hmem : p.2.get_index ∈ st := by
        rw [← hp]
        unfold BullDag.trace at htr
        exact walk_self_mem htr
      rw [if_pos hmem]
      rfl

theorem check_ok_ne {g : BullDag T Ix} {p : Vertex T Ix × Vertex T Ix}
    (h : isOkResult (g.check_cycles p) = true) :
    p.1.get_index ≠ p.2.get_index := by
  intro he
  rw [self_loop_not_ok he] at h
  cases h

theorem commitSource_get_vertex_ne {g : BullDag T Ix} {e : Edge Ix}
    {w : Vertex T Ix} {k : Ix} (hk : k ≠ w.get_index) :
    (commitSource g e w).get_vertex k = g.get_vertex k := by
  unfold commitSource
  cases hv : g.get_vertex w.get_index with
  | some vtx =>
    rw [get_vertex_clean_leaf]
    apply get_vertex_add_vertex_ne
    rw [index_add_edge, get_vertex_index hv]
    exact hk
  | none =>
    exact get_vertex_add_vertex_ne g w hk

theorem commitReference_get_vertex_ne {g : BullDag T Ix} {e : Edge Ix}
    {w : Vertex T Ix} {k : Ix} (hk : k ≠ w.get_index) :
    (commitReference g e w).get_vertex k = g.get_vertex k := by
  unfold commitReference
  cases hv : g.get_vertex w.get_index with
  | some vtx =>
    rw [get_vertex_clean_root]
    apply get_vertex_add_vertex_ne
    rw [index_add_edge, get_vertex_index hv]
    exact hk
  | none =>
    exact get_vertex_add_vertex_ne g w hk

theorem commitSource_lookup_present {g : BullDag T Ix} {e : Edge Ix}
    {w vtx : Vertex T Ix} (hv : g.get_vertex w.get_index = some vtx) :
    (commitSource g e w).get_vertex w.get_index = some (vtx.add_edge e) := by
  unfold commitSource
  rw [hv]
  dsimp only
  rw [get_vertex_clean_leaf]
  have hidx : (vtx.add_edge e).index = w.get_index := by
    rw [index_add_edge]
    exact get_vertex_index hv
  rw [← hidx]
  exact get_vertex_add_vertex_self _ _

theorem commitSource_lookup_absent {g : BullDag T Ix} {e : Edge Ix}
    {w : Vertex T Ix} (hv : g.get_vertex w.get_index = none) :
    (commitSource g e w).get_vertex w.get_index = some w := by
  unfold commitSource
  rw [hv]
  dsimp only
  exact get_vertex_add_vertex_self g w

theorem commitReference_lookup_present {g : BullDag T Ix} {e : Edge Ix}
    {w vtx : Vertex T Ix} (hv : g.get_vertex w.get_index = some vtx) :
    (commitReference g e w).get_vertex w.get_index =
      some (vtx.add_edge e) := by
  unfold commitReference
  rw [hv]
  dsimp only
  rw [get_vertex_clean_root]
  have hidx : (vtx.add_edge e).index = w.get_index := by
    rw [index_add_edge]
    exact get_vertex_index hv
  rw [← hidx]
  exact get_vertex_add_vertex_self _ _

theorem commitReference_lookup_absent {g : BullDag T Ix} {e : Edge Ix}
    {w : Vertex T Ix} (hv : g.get_vertex w.get_index = none) :
    (commitReference g e w).get_vertex w.get_index = some w := by
  unfold commitReference
  rw [hv]
  dsimp only
  exact get_vertex_add_vertex_self g w

theorem commitEdge_get_vertex (g : BullDag T Ix)
    (p : Vertex T Ix × Vertex T Ix) (k : Ix) :
    (commitEdge g p).get_vertex k =
      (commitReference
        (commitSource g (Edge.new p.1.get_index p.2.get_index)
          (p.1.add_edge (Edge.new p.1.get_index p.2.get_index)))
        (Edge.new p.1.get_index p.2.get_index)
        (p.2.add_edge (Edge.new p.1.get_index p.2.get_index))).get_vertex
        k := rfl

/-- After a successful commit, the stored source vertex is some vertex
with the committed edge absorbed. -/
theorem commitEdge_lookup_source {g : BullDag T Ix}
    {p : Vertex T Ix × Vertex T Ix}
    (hne : p.1.get_index ≠ p.2.get_index) :
    ∃ w0 : Vertex T Ix,
      (commitEdge g p).get_vertex p.1.get_index =
        some (w0.add_edge (Edge.new p.1.get_index p.2.get_index)) := by
  rw [commitEdge_get_vertex]
  rw [commitReference_get_vertex_ne (by rw [index_add_edge_get]; exact hne)]
  cases hv : g.get_vertex (p.1.add_edge
      (Edge.new p.1.get_index p.2.get_index)).get_index with
  | some vtx =>
    refine ⟨vtx, ?_⟩
    have h2 := commitSource_lookup_present
      (e := Edge.new p.1.get_index p.2.get_index) hv
    rw [index_add_edge_get] at h2
    exact h2
  | none =>
    refine ⟨p.1, ?_⟩
    have h2 := commitSource_lookup_absent
      (e := Edge.new p.1.get_index p.2.get_index) hv
    rw [index_add_edge_get] at h2
    exact h2

/-- After a successful commit, the stored reference vertex is some vertex
with the committed edge absorbed. -/
theorem commitEdge_lookup_reference {g : BullDag T Ix}
    {p : Vertex T Ix × Vertex T Ix} :
    ∃ w0 : Vertex T Ix,
      (commitEdge g p).get_vertex p.2.get_index =
        some (w0.add_edge (Edge.new p.1.get_index p.2.get_index)) := by
  rw [commitEdge_get_vertex]
  cases hv : (commitSource g (Edge.new p.1.get_index p.2.get_index)
      (p.1.add_edge (Edge.new p.1.get_index p.2.get_index))).get_vertex
      (p.2.add_edge (Edge.new p.1.get_index p.2.get_index)).get_index with
  | some vtx =>
    refine ⟨vtx, ?_⟩
    have h2 := commitReference_lookup_present
      (e := Edge.new p.1.get_index p.2.get_index) hv
    rw [index_add_edge_get] at h2
    exact h2
  | none =>
    refine ⟨p.2, ?_⟩
    have h2 := commitReference_lookup_absent
      (e := Edge.new p.1.get_index p.2.get_index) hv
    rw [index_add_edge_get] at h2
    exact h2

end Bulldag

namespace Bulldag

variable {T Ix : Type} [DecidableEq Ix]

/-- C9: on every graph whose committed edge set contains no directed
cycle, `trace` terminates (the fuel `traceFuel` is sufficient in both
directions, so the embedded recursion returns a value rather than
exhausting fuel). -/
theorem claim9_trace_terminates : ∀ (T Ix : Type) [DecidableEq Ix]
    (g : BullDag T Ix) (target : Vertex T Ix) (dir : Direction),
    Acyclic g.edges → (g.trace target dir).isSome := by
  intro T Ix _ g target dir h
  exact trace_isSome h target dir

/-- Witness for C9 on a concrete acyclic two-edge graph, in both
directions. -/
theorem claim9_witness :
    ((BullDag.new.add_edge (mkv 1, mkv 2)).trace (mkv 2) .Source).isSome ∧
    ((BullDag.new.add_edge (mkv 1, mkv 2)).trace (mkv 1)
      .Reference).isSome :=
  ⟨claim9_trace_terminates Nat Nat _ (mkv 2) .Source
      (invE_add_edge invE_new).acyclic,
   claim9_trace_terminates Nat Nat _ (mkv 1) .Reference
      (invE_add_edge invE_new).acyclic⟩

/-- C6: submitting the identical `(source, reference)` pair twice in a
row leaves `n_edges` unchanged, and leaves `n_sources` and `n_references`
of both endpoint vertices unchanged, relative to the state after the
first submission — on every starting graph state. -/
theorem claim6_idempotent : ∀ (T Ix : Type) [DecidableEq Ix]
    (g : BullDag T Ix) (p : Vertex T Ix × Vertex T Ix),
    ((g.add_edge p).add_edge p).n_edges = (g.add_edge p).n_edges ∧
    (((g.add_edge p).add_edge p).get_vertex p.1.get_index).map
        Vertex.n_sources =
      ((g.add_edge p).get_vertex p.1.get_index).map Vertex.n_sources ∧
    (((g.add_edge p).add_edge p).get_vertex p.1.get_index).map
        Vertex.n_references =
      ((g.add_edge p).get_vertex p.1.get_index).map Vertex.n_references ∧
    (((g.add_edge p).add_edge p).get_vertex p.2.get_index).map
        Vertex.n_sources =
      ((g.add_edge p).get_vertex p.2.get_index).map Vertex.n_sources ∧
    (((g.add_edge p).add_edge p).get_vertex p.2.get_index).map
        Vertex.n_references =
      ((g.add_edge p).get_vertex p.2.get_index).map Vertex.n_references := by
  intro T Ix _ g p
  cases hok2 : isOkResult ((g.add_edge p).check_cycles p) with
  | false =>
    rw [add_edge_of_not_ok hok2]
    exact ⟨rfl, rfl, rfl, rfl, rfl⟩
  | true =>
    have hok1 : isOkResult (g.check_cycles p) = true := by
      by_contra hcon
      have hf : isOkResult (g.check_cycles p) = false := by
        cases h : isOkResult (g.check_cycles p)
        · rfl
        · exact absurd h hcon
      have heq : g.add_edge p = g := add_edge_of_not_ok hf
      rw [heq] at hok2
      rw [hok2] at hf
      cases hf
    have hne : p.1.get_index ≠ p.2.get_index := check_ok_ne hok2
    have hg1c : g.add_edge p = commitEdge g p := add_edge_of_ok hok1
    have hg2c : (g.add_edge p).add_edge p = commitEdge (g.add_edge p) p :=
      add_edge_of_ok hok2
    have hemem : Edge.new p.1.get_index p.2.get_index ∈
        (g.add_edge p).edges := by
      rw [hg1c, commitEdge_edges]
      exact self_mem_insertSet
    obtain ⟨w0, hs1⟩ : ∃ w0 : Vertex T Ix,
        (g.add_edge p).get_vertex p.1.get_index =
        some (w0.add_edge (Edge.new p.1.get_index p.2.get_index)) := by
      rw [hg1c]
      exact commitEdge_lookup_source hne
    obtain ⟨w1, hr1⟩ : ∃ w1 : Vertex T Ix,
        (g.add_edge p).get_vertex p.2.get_index =
        some (w1.add_edge (Edge.new p.1.get_index p.2.get_index)) := by
      rw [hg1c]
      exact commitEdge_lookup_reference
    have hs2 : (commitEdge (g.add_edge p) p).get_vertex p.1.get_index =
        (g.add_edge p).get_vertex p.1.get_index := by
      rw [commitEdge_get_vertex]
      rw [commitReference_get_vertex_ne
        (by rw [index_add_edge_get]; exact hne)]
      have hlp := commitSource_lookup_present
        (g := g.add_edge p) (e := Edge.new p.1.get_index p.2.get_index)
        (w := p.1.add_edge (Edge.new p.1.get_index p.2.get_index))
        (by rw [index_add_edge_get]; exact hs1)
      rw [index_add_edge_get] at hlp
      rw [hlp, add_edge_idem, hs1]
    have hr2 : (commitEdge (g.add_edge p) p).get_vertex p.2.get_index =
        (g.add_edge p).get_vertex p.2.get_index := by
      rw [commitEdge_get_vertex]
      have hcs : (commitSource (g.add_edge p)
          (Edge.new p.1.get_index p.2.get_index)
          (p.1.add_edge (Edge.new p.1.get_index p.2.get_index))).get_vertex
          p.2.get_index = (g.add_edge p).get_vertex p.2.get_index :=
        commitSource_get_vertex_ne
          (by rw [index_add_edge_get]; exact fun h => hne h.symm)
      have hlp := commitReference_lookup_present
        (g := commitSource (g.add_edge p)
          (Edge.new p.1.get_index p.2.get_index)
          (p.1.add_edge (Edge.new p.1.get_index p.2.get_index)))
        (e := Edge.new p.1.get_index p.2.get_index)
        (w := p.2.add_edge (Edge.new p.1.get_index p.2.get_index))
        (by rw [index_add_edge_get, hcs]; exact hr1)
      rw [index_add_edge_get] at hlp
      rw [hlp, add_edge_idem, hr1]
    have hedg : (commitEdge (g.add_edge p) p).n_edges =
        (g.add_edge p).n_edges := by
      unfold BullDag.n_edges
      rw [commitEdge_edges, insertSet_eq_of_mem hemem]
    rw [hg2c]
    exact ⟨hedg, by rw [hs2], by rw [hs2], by rw [hr2], by rw [hr2]⟩

end Bulldag

namespace Bulldag

variable {T Ix : Type} [DecidableEq Ix]

/-! ### Root/leaf consistency machinery (claim C3) -/

theorem mem_insertVertexList {vs : List (Vertex T Ix)} {v w : Vertex T Ix}
    (h : w ∈ insertVertexList vs v) :
    w = v ∨ (w ∈ vs ∧ w.index ≠ v.index) := by
  unfold insertVertexList at h
  split at h
  · obtain ⟨w0, hw0, heq⟩ := List.mem_map.mp h
    by_cases hidx : w0.index = v.index
    · rw [if_pos hidx] at heq
      exact Or.inl heq.symm
    · rw [if_neg hidx] at heq
      subst heq
      exact Or.inr ⟨hw0, hidx⟩
  · rename_i hany
    rcases List.mem_append.mp h with hw | hw
    · right
      refine ⟨hw, ?_⟩
      intro hidx
      exact hany (List.any_eq_true.mpr ⟨w, hw, by simp [hidx]⟩)
    · rw [List.mem_singleton] at hw
      exact Or.inl hw

theorem self_mem_insertVertexList (vs : List (Vertex T Ix))
    (v : Vertex T Ix) : v ∈ insertVertexList vs v := by
  unfold insertVertexList
  split
  · rename_i hany
    obtain ⟨w, hw, hwi⟩ := List.any_eq_true.mp hany
    simp only [decide_eq_true_eq] at hwi
    apply List.mem_map.mpr
    exact ⟨w, hw, by rw [if_pos hwi]⟩
  · exact List.mem_append_right _ (List.mem_singleton_self v)

theorem mem_insertVertexList_of_ne {vs : List (Vertex T Ix)}
    {v w : Vertex T Ix} (hw : w ∈ vs) (hne : w.index ≠ v.index) :
    w ∈ insertVertexList vs v := by
  unfold insertVertexList
  split
  · apply List.mem_map.mpr
    exact ⟨w, hw, by rw [if_neg hne]⟩
  · exact List.mem_append_left _ hw

theorem insertVertexList_key_mem {vs : List (Vertex T Ix)}
    (v : Vertex T Ix) {k : Ix}
    (h : (∃ w ∈ vs, w.index = k) ∨ k = v.index) :
    ∃ w ∈ insertVertexList vs v, w.index = k := by
  rcases h with ⟨w, hw, hwk⟩ | rfl
  · by_cases hne : w.index = v.index
    · exact ⟨v, self_mem_insertVertexList vs v, by rw [← hne, hwk]⟩
    · exact ⟨w, mem_insertVertexList_of_ne hw hne, hwk⟩
  · exact ⟨v, self_mem_insertVertexList vs v, rfl⟩

theorem get_vertex_none_iff {g : BullDag T Ix} {k : Ix} :
    g.get_vertex k = none ↔ ∀ v ∈ g.vertices, v.index ≠ k := by
  unfold BullDag.get_vertex
  rw [List.find?_eq_none]
  constructor
  · intro h v hv
    have := h v hv
    simpa using this
  · intro h v hv
    simp [h v hv]

theorem add_vertex_roots (g : BullDag T Ix) (v : Vertex T Ix) :
    (g.add_vertex v).roots =
      if v.sources.isEmpty then insertSet g.roots v.index else g.roots := by
  unfold BullDag.add_vertex BullDag.add_root BullDag.add_leaf
  dsimp only [Vertex.get_sources, Vertex.get_references, Vertex.get_index]
  split <;> split <;> rfl

theorem add_vertex_leaves (g : BullDag T Ix) (v : Vertex T Ix) :
    (g.add_vertex v).leaves =
      if v.references.isEmpty then insertSet g.leaves v.index
      else g.leaves := by
  unfold BullDag.add_vertex BullDag.add_root BullDag.add_leaf
  dsimp only [Vertex.get_sources, Vertex.get_references, Vertex.get_index]
  split <;> split <;> rfl

theorem add_edge_vertex_source {v : Vertex T Ix} {e : Edge Ix}
    (hs : e.source = v.index) (hne : e.reference ≠ v.index) :
    (v.add_edge e).sources = v.sources ∧
    (v.add_edge e).references = insertSet v.references e.reference := by
  unfold Vertex.add_edge Vertex.add_reference Vertex.add_source
  simp only [Edge.get_source, Edge.get_reference]
  rw [if_pos hs]
  dsimp only
  rw [if_neg hne]
  exact ⟨rfl, rfl⟩

theorem add_edge_vertex_reference {v : Vertex T Ix} {e : Edge Ix}
    (hr : e.reference = v.index) (hne : e.source ≠ v.index) :
    (v.add_edge e).sources = insertSet v.sources e.source ∧
    (v.add_edge e).references = v.references := by
  unfold Vertex.add_edge Vertex.add_reference Vertex.add_source
  simp only [Edge.get_source, Edge.get_reference]
  rw [if_neg hne]
  rw [if_pos hr]
  exact ⟨rfl, rfl⟩

theorem clean_leaf_leaves_of_nonempty {g : BullDag T Ix} {i : Ix}
    {vtx : Vertex T Ix} (hv : g.get_vertex i = some vtx)
    (hne : vtx.references ≠ []) (hnd : g.leaves.Nodup) :
    ∀ k, k ∈ (g.clean_leaf i).leaves ↔ k ∈ g.leaves ∧ k ≠ i := by
  intro k
  unfold BullDag.clean_leaf
  by_cases hi : i ∈ g.leaves
  · rw [if_pos hi, hv]
    dsimp only
    have hie : vtx.get_references.isEmpty = false := by
      unfold Vertex.get_references
      rw [← Bool.not_eq_true, List.isEmpty_iff]
      exact hne
    rw [hie]
    rw [show (!false) = true from rfl, if_pos rfl]
    rw [List.Nodup.mem_erase_iff hnd]
    exact and_comm
  · rw [if_neg hi]
    constructor
    · intro hk
      refine ⟨hk, ?_⟩
      rintro rfl
      exact hi hk
    · exact fun h => h.1

theorem clean_root_roots_of_nonempty {g : BullDag T Ix} {i : Ix}
    {vtx : Vertex T Ix} (hv : g.get_vertex i = some vtx)
    (hne : vtx.sources ≠ []) (hnd : g.roots.Nodup) :
    ∀ k, k ∈ (g.clean_root i).roots ↔ k ∈ g.roots ∧ k ≠ i := by
  intro k
  unfold BullDag.clean_root
  by_cases hi : i ∈ g.roots
  · rw [if_pos hi, hv]
    dsimp only
    have hie : vtx.get_sources.isEmpty = false := by
      unfold Vertex.get_sources
      rw [← Bool.not_eq_true, List.isEmpty_iff]
      exact hne
    rw [hie]
    rw [show (!false) = true from rfl, if_pos rfl]
    rw [List.Nodup.mem_erase_iff hnd]
    exact and_comm
  · rw [if_neg hi]
    constructor
    · intro hk
      refine ⟨hk, ?_⟩
      rintro rfl
      exact hi hk
    · exact fun h => h.1

theorem clean_leaf_leaves_nodup {g : BullDag T Ix} {i : Ix}
    (h : g.leaves.Nodup) : (g.clean_leaf i).leaves.Nodup := by
  unfold BullDag.clean_leaf
  split
  · split
    · split
      · exact List.Nodup.erase _ h
      · exact h
    · exact h
  · exact h

theorem clean_root_roots_nodup {g : BullDag T Ix} {i : Ix}
    (h : g.roots.Nodup) : (g.clean_root i).roots.Nodup := by
  unfold BullDag.clean_root
  split
  · split
    · split
      · exact List.Nodup.erase _ h
      · exact h
    · exact h
  · exact h

end Bulldag

namespace Bulldag

variable {T Ix : Type} [DecidableEq Ix]

theorem rlInv_commitSource {g : BullDag T Ix} {e : Edge Ix}
    {w : Vertex T Ix} (hinv : RLInv g) (hw : w.get_index = e.source)
    (hne : e.reference ≠ e.source) : RLInv (commitSource g e w) := by
  unfold commitSource
  rw [hw]
  cases hv : g.get_vertex e.source with
  | some vtx =>
    dsimp only
    have hvidx : vtx.index = e.source := get_vertex_index hv
    have hupd := add_edge_vertex_source (v := vtx) (e := e)
      (by rw [hvidx]) (by rw [hvidx]; exact hne)
    have hSrc := hupd.1
    have hRef := hupd.2
    have hrefs_ne : (vtx.add_edge e).references ≠ [] := by
      rw [hRef]
      unfold insertSet
      split
      · rename_i hm
        intro hcon
        rw [hcon] at hm
        cases hm
      · intro hcon
        have hlen := congrArg List.length hcon
        simp at hlen
    have huidx : (vtx.add_edge e).index = e.source := by
      rw [index_add_edge, hvidx]
    have hlook : (g.add_vertex (vtx.add_edge e)).get_vertex
        ((vtx.add_edge e).index) = some (vtx.add_edge e) :=
      get_vertex_add_vertex_self g _
    have hlnd : (g.add_vertex (vtx.add_edge e)).leaves.Nodup := by
      rw [add_vertex_leaves]
      split
      · exact nodup_insertSet hinv.leavesNodup
      · exact hinv.leavesNodup
    have hcond : ¬ ((vtx.add_edge e).references.isEmpty = true) := by
      rw [List.isEmpty_iff]
      exact hrefs_ne
    have hleaves1 : (g.add_vertex (vtx.add_edge e)).leaves = g.leaves := by
      rw [add_vertex_leaves, if_neg hcond]
    have hgidx : (vtx.add_edge e).get_index = e.source := huidx
    have hleavesB := clean_leaf_leaves_of_nonempty
      (g := g.add_vertex (vtx.add_edge e))
      (i := (vtx.add_edge e).get_index) hlook hrefs_ne hlnd
    have hleavesC : ∀ k, k ∈ ((g.add_vertex (vtx.add_edge e)).clean_leaf
        (vtx.add_edge e).get_index).leaves ↔
        k ∈ g.leaves ∧ k ≠ e.source := by
      intro k
      rw [hleavesB k, hleaves1, hgidx]
    have hrootsC : ∀ k, k ∈ ((g.add_vertex (vtx.add_edge e)).clean_leaf
        (vtx.add_edge e).get_index).roots ↔
        (k ∈ g.roots ∨ (k = e.source ∧ vtx.sources = [])) := by
      intro k
      rw [clean_leaf_roots, add_vertex_roots, huidx, hSrc]
      by_cases hse : vtx.sources = []
      · rw [if_pos (by rw [hse]; rfl), mem_insertSet]
        constructor
        · rintro (hm | rfl)
          · exact Or.inl hm
          · exact Or.inr ⟨rfl, hse⟩
        · rintro (hm | ⟨rfl, _⟩)
          · exact Or.inl hm
          · exact Or.inr rfl
      · rw [if_neg (by rw [List.isEmpty_iff]; exact hse)]
        constructor
        · exact Or.inl
        · rintro (hm | ⟨rfl, hcon⟩)
          · exact hm
          · exact absurd hcon hse
    have hvertC : ((g.add_vertex (vtx.add_edge e)).clean_leaf
        (vtx.add_edge e).get_index).vertices =
        insertVertexList g.vertices (vtx.add_edge e) := by
      rw [clean_leaf_vertices, add_vertex_vertices]
    constructor
    · intro w2 hw2
      rw [hvertC] at hw2
      constructor
      · rw [hrootsC]
        rcases mem_insertVertexList hw2 with rfl | ⟨hmem, hni⟩
        · rw [huidx, hSrc]
          have holdR := (hinv.consistent vtx (get_vertex_mem hv)).1
          rw [hvidx] at holdR
          constructor
          · rintro (hm | ⟨_, hs⟩)
            · exact holdR.mp hm
            · exact hs
          · intro hs
            exact Or.inr ⟨rfl, hs⟩
        · rw [huidx] at hni
          have holdR := (hinv.consistent w2 hmem).1
          constructor
          · rintro (hm | ⟨hk, _⟩)
            · exact holdR.mp hm
            · exact absurd hk hni
          · intro hs
            exact Or.inl (holdR.mpr hs)
      · rw [hleavesC]
        rcases mem_insertVertexList hw2 with rfl | ⟨hmem, hni⟩
        · rw [huidx]
          constructor
          · rintro ⟨_, hcon⟩
            exact absurd rfl hcon
          · intro hemp
            exact absurd hemp hrefs_ne
        · rw [huidx] at hni
          have holdL := (hinv.consistent w2 hmem).2
          constructor
          · rintro ⟨hm, _⟩
            exact holdL.mp hm
          · intro hemp
            exact ⟨holdL.mpr hemp, hni⟩
    · intro k hk
      rw [hrootsC] at hk
      rw [hvertC]
      rcases hk with hm | ⟨rfl, _⟩
      · exact insertVertexList_key_mem _ (Or.inl (hinv.rootsKeys k hm))
      · exact insertVertexList_key_mem _ (Or.inr huidx.symm)
    · intro k hk
      rw [hleavesC] at hk
      rw [hvertC]
      exact insertVertexList_key_mem _ (Or.inl (hinv.leavesKeys k hk.1))
    · rw [clean_leaf_roots, add_vertex_roots]
      split
      · exact nodup_insertSet hinv.rootsNodup
      · exact hinv.rootsNodup
    · exact clean_leaf_leaves_nodup hlnd
  | none =>
    dsimp only
    have habs : ∀ v2 ∈ g.vertices, v2.index ≠ e.source :=
      get_vertex_none_iff.mp hv
    have hwidx : w.index = e.source := hw
    have hrootsC : ∀ k, k ∈ (g.add_vertex w).roots ↔
        (k ∈ g.roots ∨ (k = e.source ∧ w.sources = [])) := by
      intro k
      rw [add_vertex_roots, hwidx]
      by_cases hse : w.sources = []
      · rw [if_pos (by rw [hse]; rfl), mem_insertSet]
        constructor
        · rintro (hm | rfl)
          · exact Or.inl hm
          · exact Or.inr ⟨rfl, hse⟩
        · rintro (hm | ⟨rfl, _⟩)
          · exact Or.inl hm
          · exact Or.inr rfl
      · rw [if_neg (by rw [List.isEmpty_iff]; exact hse)]
        constructor
        · exact Or.inl
        · rintro (hm | ⟨rfl, hcon⟩)
          · exact hm
          · exact absurd hcon hse
    have hleavesC : ∀ k, k ∈ (g.add_vertex w).leaves ↔
        (k ∈ g.leaves ∨ (k = e.source ∧ w.references = [])) := by
      intro k
      rw [add_vertex_leaves, hwidx]
      by_cases hre : w.references = []
      · rw [if_pos (by rw [hre]; rfl), mem_insertSet]
        constructor
        · rintro (hm | rfl)
          · exact Or.inl hm
          · exact Or.inr ⟨rfl, hre⟩
        · rintro (hm | ⟨rfl, _⟩)
          · exact Or.inl hm
          · exact Or.inr rfl
      · rw [if_neg (by rw [List.isEmpty_iff]; exact hre)]
        constructor
        · exact Or.inl
        · rintro (hm | ⟨rfl, hcon⟩)
          · exact hm
          · exact absurd hcon hre
    constructor
    · intro w2 hw2
      rw [add_vertex_vertices] at hw2
      constructor
      · rw [hrootsC]
        rcases mem_insertVertexList hw2 with rfl | ⟨hmem, hni⟩
        · rw [hwidx]
          constructor
          · rintro (hm | ⟨_, hs⟩)
            · obtain ⟨v2, hv2, hv2i⟩ := hinv.rootsKeys _ hm
              exact absurd hv2i (habs v2 hv2)
            · exact hs
          · intro hs
            exact Or.inr ⟨rfl, hs⟩
        · rw [hwidx] at hni
          have holdR := (hinv.consistent w2 hmem).1
          constructor
          · rintro (hm | ⟨hk, _⟩)
            · exact holdR.mp hm
            · exact absurd hk hni
          · intro hs
            exact Or.inl (holdR.mpr hs)
      · rw [hleavesC]
        rcases mem_insertVertexList hw2 with rfl | ⟨hmem, hni⟩
        · rw [hwidx]
          constructor
          · rintro (hm | ⟨_, hs⟩)
            · obtain ⟨v2, hv2, hv2i⟩ := hinv.leavesKeys _ hm
              exact absurd hv2i (habs v2 hv2)
            · exact hs
          · intro hs
            exact Or.inr ⟨rfl, hs⟩
        · rw [hwidx] at hni
          have holdL := (hinv.consistent w2 hmem).2
          constructor
          · rintro (hm | ⟨hk, _⟩)
            · exact holdL.mp hm
            · exact absurd hk hni
          · intro hs
            exact Or.inl (holdL.mpr hs)
    · intro k hk
      rw [hrootsC] at hk
      rw [add_vertex_vertices]
      rcases hk with hm | ⟨rfl, _⟩
      · exact insertVertexList_key_mem _ (Or.inl (hinv.rootsKeys k hm))
      · exact insertVertexList_key_mem _ (Or.inr hwidx.symm)
    · intro k hk
      rw [hleavesC] at hk
      rw [add_vertex_vertices]
      rcases hk with hm | ⟨rfl, _⟩
      · exact insertVertexList_key_mem _ (Or.inl (hinv.leavesKeys k hm))
      · exact insertVertexList_key_mem _ (Or.inr hwidx.symm)
    · rw [add_vertex_roots]
      split
      · exact nodup_insertSet hinv.rootsNodup
      · exact hinv.rootsNodup
    · rw [add_vertex_leaves]
      split
      · exact nodup_insertSet hinv.leavesNodup
      · exact hinv.leavesNodup

end Bulldag

namespace Bulldag

variable {T Ix : Type} [DecidableEq Ix]

theorem rlInv_commitReference {g : BullDag T Ix} {e : Edge Ix}
    {w : Vertex T Ix} (hinv : RLInv g) (hw : w.get_index = e.reference)
    (hne : e.reference ≠ e.source) : RLInv (commitReference g e w) := by
  unfold commitReference
  rw [hw]
  cases hv : g.get_vertex e.reference with
  | some vtx =>
    dsimp only
    have hvidx : vtx.index = e.reference := get_vertex_index hv
    have hupd := add_edge_vertex_reference (v := vtx) (e := e)
      (by rw [hvidx]) (by rw [hvidx]; exact fun h => hne h.symm)
    have hSrc := hupd.1
    have hRef := hupd.2
    have hsrcs_ne : (vtx.add_edge e).sources ≠ [] := by
      rw [hSrc]
      unfold insertSet
      split
      · rename_i hm
        intro hcon
        rw [hcon] at hm
        cases hm
      · intro hcon
        have hlen := congrArg List.length hcon
        simp at hlen
    have huidx : (vtx.add_edge e).index = e.reference := by
      rw [index_add_edge, hvidx]
    have hlook : (g.add_vertex (vtx.add_edge e)).get_vertex
        ((vtx.add_edge e).index) = some (vtx.add_edge e) :=
      get_vertex_add_vertex_self g _
    have hrnd : (g.add_vertex (vtx.add_edge e)).roots.Nodup := by
      rw [add_vertex_roots]
      split
      · exact nodup_insertSet hinv.rootsNodup
      · exact hinv.rootsNodup
    have hcond : ¬ ((vtx.add_edge e).sources.isEmpty = true) := by
      rw [List.isEmpty_iff]
      exact hsrcs_ne
    have hroots1 : (g.add_vertex (vtx.add_edge e)).roots = g.roots := by
      rw [add_vertex_roots, if_neg hcond]
    have hgidx : (vtx.add_edge e).get_index = e.reference := huidx
    have hrootsB := clean_root_roots_of_nonempty
      (g := g.add_vertex (vtx.add_edge e))
      (i := (vtx.add_edge e).get_index) hlook hsrcs_ne hrnd
    have hrootsC : ∀ k, k ∈ ((g.add_vertex (vtx.add_edge e)).clean_root
        (vtx.add_edge e).get_index).roots ↔
        k ∈ g.roots ∧ k ≠ e.reference := by
      intro k
      rw [hrootsB k, hroots1, hgidx]
    have hleavesC : ∀ k, k ∈ ((g.add_vertex (vtx.add_edge e)).clean_root
        (vtx.add_edge e).get_index).leaves ↔
        (k ∈ g.leaves ∨ (k = e.reference ∧ vtx.references = [])) := by
      intro k
      rw [clean_root_leaves, add_vertex_leaves, huidx, hRef]
      by_cases hre : vtx.references = []
      · rw [if_pos (by rw [hre]; rfl), mem_insertSet]
        constructor
        · rintro (hm | rfl)
          · exact Or.inl hm
          · exact Or.inr ⟨rfl, hre⟩
        · rintro (hm | ⟨rfl, _⟩)
          · exact Or.inl hm
          · exact Or.inr rfl
      · rw [if_neg (by rw [List.isEmpty_iff]; exact hre)]
        constructor
        · exact Or.inl
        · rintro (hm | ⟨rfl, hcon⟩)
          · exact hm
          · exact absurd hcon hre
    have hvertC : ((g.add_vertex (vtx.add_edge e)).clean_root
        (vtx.add_edge e).get_index).vertices =
        insertVertexList g.vertices (vtx.add_edge e) := by
      rw [clean_root_vertices, add_vertex_vertices]
    constructor
    · intro w2 hw2
      rw [hvertC] at hw2
      constructor
      · rw [hrootsC]
        rcases mem_insertVertexList hw2 with rfl | ⟨hmem, hni⟩
        · rw [huidx]
          constructor
          · rintro ⟨_, hcon⟩
            exact absurd rfl hcon
          · intro hemp
            exact absurd hemp hsrcs_ne
        · rw [huidx] at hni
          have holdR := (hinv.consistent w2 hmem).1
          constructor
          · rintro ⟨hm, _⟩
            exact holdR.mp hm
          · intro hemp
            exact ⟨holdR.mpr hemp, hni⟩
      · rw [hleavesC]
        rcases mem_insertVertexList hw2 with rfl | ⟨hmem, hni⟩
        · rw [huidx, hRef]
          have holdL := (hinv.consistent vtx (get_vertex_mem hv)).2
          rw [hvidx] at holdL
          constructor
          · rintro (hm | ⟨_, hs⟩)
            · exact holdL.mp hm
            · exact hs
          · intro hs
            exact Or.inr ⟨rfl, hs⟩
        · rw [huidx] at hni
          have holdL := (hinv.consistent w2 hmem).2
          constructor
          · rintro (hm | ⟨hk, _⟩)
            · exact holdL.mp hm
            · exact absurd hk hni
          · intro hs
            exact Or.inl (holdL.mpr hs)
    · intro k hk
      rw [hrootsC] at hk
      rw [hvertC]
      exact insertVertexList_key_mem _ (Or.inl (hinv.rootsKeys k hk.1))
    · intro k hk
      rw [hleavesC] at hk
      rw [hvertC]
      rcases hk with hm | ⟨rfl, _⟩
      · exact insertVertexList_key_mem _ (Or.inl (hinv.leavesKeys k hm))
      · exact insertVertexList_key_mem _ (Or.inr huidx.symm)
    · exact clean_root_roots_nodup hrnd
    · rw [clean_root_leaves, add_vertex_leaves]
      split
      · exact nodup_insertSet hinv.leavesNodup
      · exact hinv.leavesNodup
  | none =>
    dsimp only
    have habs : ∀ v2 ∈ g.vertices, v2.index ≠ e.reference :=
      get_vertex_none_iff.mp hv
    have hwidx : w.index = e.reference := hw
    have hrootsC : ∀ k, k ∈ (g.add_vertex w).roots ↔
        (k ∈ g.roots ∨ (k = e.reference ∧ w.sources = [])) := by
      intro k
      rw [add_vertex_roots, hwidx]
      by_cases hse : w.sources = []
      · rw [if_pos (by rw [hse]; rfl), mem_insertSet]
        constructor
        · rintro (hm | rfl)
          · exact Or.inl hm
          · exact Or.inr ⟨rfl, hse⟩
        · rintro (hm | ⟨rfl, _⟩)
          · exact Or.inl hm
          · exact Or.inr rfl
      · rw [if_neg (by rw [List.isEmpty_iff]; exact hse)]
        constructor
        · exact Or.inl
        · rintro (hm | ⟨rfl, hcon⟩)
          · exact hm
          · exact absurd hcon hse
    have hleavesC : ∀ k, k ∈ (g.add_vertex w).leaves ↔
        (k ∈ g.leaves ∨ (k = e.reference ∧ w.references = [])) := by
      intro k
      rw [add_vertex_leaves, hwidx]
      by_cases hre : w.references = []
      · rw [if_pos (by rw [hre]; rfl), mem_insertSet]
        constructor
        · rintro (hm | rfl)
          · exact Or.inl hm
          · exact Or.inr ⟨rfl, hre⟩
        · rintro (hm | ⟨rfl, _⟩)
          · exact Or.inl hm
          · exact Or.inr rfl
      · rw [if_neg (by rw [List.isEmpty_iff]; exact hre)]
        constructor
        · exact Or.inl
        · rintro (hm | ⟨rfl, hcon⟩)
          · exact hm
          · exact absurd hcon hre
    constructor
    · intro w2 hw2
      rw [add_vertex_vertices] at hw2
      constructor
      · rw [hrootsC]
        rcases mem_insertVertexList hw2 with rfl | ⟨hmem, hni⟩
        · rw [hwidx]
          constructor
          · rintro (hm | ⟨_, hs⟩)
            · obtain ⟨v2, hv2, hv2i⟩ := hinv.rootsKeys _ hm
              exact absurd hv2i (habs v2 hv2)
            · exact hs
          · intro hs
            exact Or.inr ⟨rfl, hs⟩
        · rw [hwidx] at hni
          have holdR := (hinv.consistent w2 hmem).1
          constructor
          · rintro (hm | ⟨hk, _⟩)
            · exact holdR.mp hm
            · exact absurd hk hni
          · intro hs
            exact Or.inl (holdR.mpr hs)
      · rw [hleavesC]
        rcases mem_insertVertexList hw2 with rfl | ⟨hmem, hni⟩
        · rw [hwidx]
          constructor
          · rintro (hm | ⟨_, hs⟩)
            · obtain ⟨v2, hv2, hv2i⟩ := hinv.leavesKeys _ hm
              exact absurd hv2i (habs v2 hv2)
            · exact hs
          · intro hs
            exact Or.inr ⟨rfl, hs⟩
        · rw [hwidx] at hni
          have holdL := (hinv.consistent w2 hmem).2
          constructor
          · rintro (hm | ⟨hk, _⟩)
            · exact holdL.mp hm
            · exact absurd hk hni
          · intro hs
            exact Or.inl (holdL.mpr hs)
    · intro k hk
      rw [hrootsC] at hk
      rw [add_vertex_vertices]
      rcases hk with hm | ⟨rfl, _⟩
      · exact insertVertexList_key_mem _ (Or.inl (hinv.rootsKeys k hm))
      · exact insertVertexList_key_mem _ (Or.inr hwidx.symm)
    · intro k hk
      rw [hleavesC] at hk
      rw [add_vertex_vertices]
      rcases hk with hm | ⟨rfl, _⟩
      · exact insertVertexList_key_mem _ (Or.inl (hinv.leavesKeys k hm))
      · exact insertVertexList_key_mem _ (Or.inr hwidx.symm)
    · rw [add_vertex_roots]
      split
      · exact nodup_insertSet hinv.rootsNodup
      · exact hinv.rootsNodup
    · rw [add_vertex_leaves]
      split
      · exact nodup_insertSet hinv.leavesNodup
      · exact hinv.leavesNodup

end Bulldag

namespace Bulldag

variable {T Ix : Type} [DecidableEq Ix]

theorem rlInv_set_edges {g : BullDag T Ix} {es : List (Edge Ix)}
    (h : RLInv g) : RLInv (BullDag.mk g.roots g.leaves g.vertices es) :=
  ⟨h.consistent, h.rootsKeys, h.leavesKeys, h.rootsNodup, h.leavesNodup⟩

theorem rlInv_add_edge {g : BullDag T Ix} {p : Vertex T Ix × Vertex T Ix}
    (hinv : RLInv g) : RLInv (g.add_edge p) := by
  cases hok : isOkResult (g.check_cycles p) with
  | false => rw [add_edge_of_not_ok hok]; exact hinv
  | true =>
    rw [add_edge_of_ok hok]
    have hne : p.1.get_index ≠ p.2.get_index := check_ok_ne hok
    unfold commitEdge
    dsimp only
    have h1 := rlInv_commitSource
      (e := Edge.new p.1.get_index p.2.get_index)
      (w := p.1.add_edge (Edge.new p.1.get_index p.2.get_index)) hinv
      (by rw [index_add_edge_get]; rfl) (fun h => hne h.symm)
    have h2 := rlInv_commitReference
      (e := Edge.new p.1.get_index p.2.get_index)
      (w := p.2.add_edge (Edge.new p.1.get_index p.2.get_index)) h1
      (by rw [index_add_edge_get]; rfl) (fun h => hne h.symm)
    exact rlInv_set_edges h2

theorem rlInv_add_vertex_fresh {g : BullDag T Ix} {v : Vertex T Ix}
    (hinv : RLInv g) (hf : freshV v) : RLInv (g.add_vertex v) := by
  obtain ⟨hs, hr⟩ := hf
  have hrootsC : ∀ k, k ∈ (g.add_vertex v).roots ↔
      (k ∈ g.roots ∨ k = v.index) := by
    intro k
    rw [add_vertex_roots, if_pos (by rw [hs]; rfl), mem_insertSet]
  have hleavesC : ∀ k, k ∈ (g.add_vertex v).leaves ↔
      (k ∈ g.leaves ∨ k = v.index) := by
    intro k
    rw [add_vertex_leaves, if_pos (by rw [hr]; rfl), mem_insertSet]
  constructor
  · intro w2 hw2
    rw [add_vertex_vertices] at hw2
    rcases mem_insertVertexList hw2 with rfl | ⟨hmem, hni⟩
    · constructor
      · rw [hrootsC, hs]
        exact ⟨fun _ => rfl, fun _ => Or.inr rfl⟩
      · rw [hleavesC, hr]
        exact ⟨fun _ => rfl, fun _ => Or.inr rfl⟩
    · have hold := hinv.consistent w2 hmem
      constructor
      · rw [hrootsC]
        constructor
        · rintro (hm | hm)
          · exact hold.1.mp hm
          · exact absurd hm hni
        · intro he
          exact Or.inl (hold.1.mpr he)
      · rw [hleavesC]
        constructor
        · rintro (hm | hm)
          · exact hold.2.mp hm
          · exact absurd hm hni
        · intro he
          exact Or.inl (hold.2.mpr he)
  · intro k hk
    rw [hrootsC] at hk
    rw [add_vertex_vertices]
    rcases hk with hm | rfl
    · exact insertVertexList_key_mem _ (Or.inl (hinv.rootsKeys k hm))
    · exact insertVertexList_key_mem _ (Or.inr rfl)
  · intro k hk
    rw [hleavesC] at hk
    rw [add_vertex_vertices]
    rcases hk with hm | rfl
    · exact insertVertexList_key_mem _ (Or.inl (hinv.leavesKeys k hm))
    · exact insertVertexList_key_mem _ (Or.inr rfl)
  · rw [add_vertex_roots]
    split
    · exact nodup_insertSet hinv.rootsNodup
    · exact hinv.rootsNodup
  · rw [add_vertex_leaves]
    split
    · exact nodup_insertSet hinv.leavesNodup
    · exact hinv.leavesNodup

theorem rlInv_new : RLInv ((BullDag.new : BullDag T Ix)) := by
  constructor
  · intro v hv
    cases hv
  · intro k hk
    cases hk
  · intro k hk
    cases hk
  · exact List.nodup_nil
  · exact List.nodup_nil

theorem rlInv_foldl_add_edge {g : BullDag T Ix} (hinv : RLInv g)
    (ps : List (Vertex T Ix × Vertex T Ix)) :
    RLInv (ps.foldl BullDag.add_edge g) := by
  induction ps generalizing g with
  | nil => exact hinv
  | cons p rest ih =>
    rw [List.foldl_cons]
    exact ih (rlInv_add_edge hinv)

theorem rlInv_add_vertices_fresh {g : BullDag T Ix}
    (hinv : RLInv g) {vs : List (Vertex T Ix)}
    (hf : ∀ v ∈ vs, freshV v) : RLInv (g.add_vertices vs) := by
  induction vs generalizing g with
  | nil => exact hinv
  | cons v rest ih =>
    show RLInv ((v :: rest).foldl BullDag.add_vertex g)
    rw [List.foldl_cons]
    exact ih (rlInv_add_vertex_fresh hinv
        (hf v (List.mem_cons_self v rest)))
      (fun v2 hv2 => hf v2 (List.mem_cons_of_mem _ hv2))

theorem rlInv_applyOp {g : BullDag T Ix} {op : Op T Ix}
    (hinv : RLInv g) (hf : freshOp op) : RLInv (applyOp g op) := by
  cases op with
  | edge p => exact rlInv_add_edge hinv
  | edges ps =>
    show RLInv (g.extend_from_edges ps)
    rw [extend_eq_foldl]
    exact rlInv_foldl_add_edge hinv ps
  | vertex v => exact rlInv_add_vertex_fresh hinv hf
  | vertices vs => exact rlInv_add_vertices_fresh hinv hf

theorem rlInv_foldl_ops {g : BullDag T Ix} (hinv : RLInv g)
    (ops : List (Op T Ix)) (hf : ∀ op ∈ ops, freshOp op) :
    RLInv (ops.foldl applyOp g) := by
  induction ops generalizing g with
  | nil => exact hinv
  | cons op rest ih =>
    rw [List.foldl_cons]
    exact ih (rlInv_applyOp hinv (hf op (List.mem_cons_self op rest)))
      (fun op2 hop2 => hf op2 (List.mem_cons_of_mem _ hop2))

/-- C3 counterexample: after inserting a fresh vertex keyed 1 and then
overwriting it via `add_vertex` with a vertex (built by the public
`Vertex::new` followed by `Vertex::add_edge`) that already carries a
source, key 1 is still in the root set while its stored sources set is
non-empty — the claimed biconditional fails. -/
theorem claim3_counterexample :
    ∃ v ∈ (c3ops.foldl applyOp ((BullDag.new : BullDag Nat Nat))).vertices,
      v.index ∈ (c3ops.foldl applyOp
        ((BullDag.new : BullDag Nat Nat))).roots ∧
      v.sources ≠ [] := by
  decide

/-- C3 (amended): after any sequence of insertion operations starting
from a new `BullDag` in which every vertex passed directly to
`add_vertex`/`add_vertices` is freshly constructed (empty neighbor sets),
every stored vertex is in the root set iff its sources set is empty and
in the leaf set iff its references set is empty. -/
theorem claim3_amended : ∀ (T Ix : Type) [DecidableEq Ix]
    (ops : List (Op T Ix)), (∀ op ∈ ops, freshOp op) →
    RootLeafConsistent (ops.foldl applyOp BullDag.new) := by
  intro T Ix _ ops hf
  exact (rlInv_foldl_ops rlInv_new ops hf).consistent

/-- Witness for the amended C3 on a concrete mixed operation sequence. -/
theorem claim3_amended_witness :
    RootLeafConsistent ([Op.edge (mkv 1, mkv 2),
      Op.vertex (mkv 3)].foldl applyOp
      ((BullDag.new : BullDag Nat Nat))) :=
  claim3_amended Nat Nat _ (by
    intro op hop
    rcases List.mem_cons.mp hop with rfl | hop
    · exact trivial
    · rcases List.mem_cons.mp hop with rfl | hop
      · exact ⟨rfl, rfl⟩
      · cases hop)

end Bulldag

namespace Bulldag

variable {T Ix : Type} [DecidableEq Ix]

/-! ### Alignment of stored neighbor sets with the edge set (claim C4) -/

theorem commitSource_vertices_present {g : BullDag T Ix} {e : Edge Ix}
    {w vtx : Vertex T Ix} (hv : g.get_vertex w.get_index = some vtx) :
    (commitSource g e w).vertices =
      insertVertexList g.vertices (vtx.add_edge e) := by
  unfold commitSource
  rw [hv]
  dsimp only
  rw [clean_leaf_vertices, add_vertex_vertices]

theorem commitSource_vertices_absent {g : BullDag T Ix} {e : Edge Ix}
    {w : Vertex T Ix} (hv : g.get_vertex w.get_index = none) :
    (commitSource g e w).vertices = insertVertexList g.vertices w := by
  unfold commitSource
  rw [hv]
  dsimp only
  rw [add_vertex_vertices]

theorem commitReference_vertices_present {g : BullDag T Ix} {e : Edge Ix}
    {w vtx : Vertex T Ix} (hv : g.get_vertex w.get_index = some vtx) :
    (commitReference g e w).vertices =
      insertVertexList g.vertices (vtx.add_edge e) := by
  unfold commitReference
  rw [hv]
  dsimp only
  rw [clean_root_vertices, add_vertex_vertices]

theorem commitReference_vertices_absent {g : BullDag T Ix} {e : Edge Ix}
    {w : Vertex T Ix} (hv : g.get_vertex w.get_index = none) :
    (commitReference g e w).vertices = insertVertexList g.vertices w := by
  unfold commitReference
  rw [hv]
  dsimp only
  rw [add_vertex_vertices]

theorem commitEdge_vertices (g : BullDag T Ix)
    (p : Vertex T Ix × Vertex T Ix) :
    (commitEdge g p).vertices =
      (commitReference
        (commitSource g (Edge.new p.1.get_index p.2.get_index)
          (p.1.add_edge (Edge.new p.1.get_index p.2.get_index)))
        (Edge.new p.1.get_index p.2.get_index)
        (p.2.add_edge (Edge.new p.1.get_index p.2.get_index))).vertices :=
  rfl

/-- The source-side updated vertex of a commit: its index and the exact
characterization of its neighbor sets relative to the pre-commit graph. -/
theorem commit_u1_spec {g : BullDag T Ix} {p : Vertex T Ix × Vertex T Ix}
    (hT : TInv g) (hf : freshPair p)
    (hne : p.1.get_index ≠ p.2.get_index) :
    ∃ u1 : Vertex T Ix,
      (commitSource g (Edge.new p.1.get_index p.2.get_index)
        (p.1.add_edge (Edge.new p.1.get_index p.2.get_index))).vertices =
        insertVertexList g.vertices u1 ∧
      u1.index = p.1.get_index ∧
      (∀ x, x ∈ u1.references ↔
        (Edge.mk p.1.get_index x ∈ g.edges ∨ x = p.2.get_index)) ∧
      (∀ x, x ∈ u1.sources ↔ Edge.mk x p.1.get_index ∈ g.edges) := by
  have hwi : (p.1.add_edge
      (Edge.new p.1.get_index p.2.get_index)).get_index = p.1.get_index :=
    index_add_edge_get
  cases hv : g.get_vertex (p.1.add_edge
      (Edge.new p.1.get_index p.2.get_index)).get_index with
  | some vtx =>
    rw [hwi] at hv
    have hvidx : vtx.index = p.1.get_index := get_vertex_index hv
    have hvm : vtx ∈ g.vertices := get_vertex_mem hv
    have hupd := add_edge_vertex_source
      (v := vtx) (e := Edge.new p.1.get_index p.2.get_index)
      (by rw [hvidx]; rfl) (by rw [hvidx]; exact fun h => hne h.symm)
    refine ⟨vtx.add_edge (Edge.new p.1.get_index p.2.get_index),
      commitSource_vertices_present (by rw [hwi]; exact hv), ?_, ?_, ?_⟩
    · rw [index_add_edge, hvidx]
    · intro x
      rw [hupd.2, mem_insertSet]
      have := hT.alignRefs vtx hvm x
      rw [hvidx] at this
      constructor
      · rintro (hm | rfl)
        · exact Or.inl (this.mp hm)
        · exact Or.inr rfl
      · rintro (hm | rfl)
        · exact Or.inl (this.mpr hm)
        · exact Or.inr rfl
    · intro x
      rw [hupd.1]
      have := hT.alignSrcs vtx hvm x
      rw [hvidx] at this
      exact this
  | none =>
    rw [hwi] at hv
    have habs := get_vertex_none_iff.mp hv
    have hupd := add_edge_vertex_source
      (v := p.1) (e := Edge.new p.1.get_index p.2.get_index)
      rfl (fun h => hne h.symm)
    have hnoedge_out : ∀ x, Edge.mk p.1.get_index x ∉ g.edges := by
      intro x hmem
      have hpres := (hT.invE.present _ hmem).1
      rw [get_vertex_isSome_iff] at hpres
      obtain ⟨v2, hv2, hv2i⟩ := hpres
      exact absurd hv2i (habs v2 hv2)
    have hnoedge_in : ∀ x, Edge.mk x p.1.get_index ∉ g.edges := by
      intro x hmem
      have hpres := (hT.invE.present _ hmem).2
      rw [get_vertex_isSome_iff] at hpres
      obtain ⟨v2, hv2, hv2i⟩ := hpres
      exact absurd hv2i (habs v2 hv2)
    refine ⟨p.1.add_edge (Edge.new p.1.get_index p.2.get_index),
      commitSource_vertices_absent (by rw [hwi]; exact hv), ?_, ?_, ?_⟩
    · exact index_add_edge
    · intro x
      rw [hupd.2, hf.1.2, mem_insertSet]
      constructor
      · rintro (hm | rfl)
        · cases hm
        · exact Or.inr rfl
      · rintro (hm | rfl)
        · exact absurd hm (hnoedge_out x)
        · exact Or.inr rfl
    · intro x
      rw [hupd.1, hf.1.1]
      constructor
      · intro hm
        cases hm
      · intro hm
        exact absurd hm (hnoedge_in x)

end Bulldag

namespace Bulldag

variable {T Ix : Type} [DecidableEq Ix]

/-- The reference-side updated vertex of a commit: its index and the
exact characterization of its neighbor sets relative to the pre-commit
graph. -/
theorem commit_u2_spec {g : BullDag T Ix} {p : Vertex T Ix × Vertex T Ix}
    (hT : TInv g) (hf : freshPair p)
    (hne : p.1.get_index ≠ p.2.get_index) :
    ∃ u2 : Vertex T Ix,
      (commitReference
        (commitSource g (Edge.new p.1.get_index p.2.get_index)
          (p.1.add_edge (Edge.new p.1.get_index p.2.get_index)))
        (Edge.new p.1.get_index p.2.get_index)
        (p.2.add_edge (Edge.new p.1.get_index p.2.get_index))).vertices =
        insertVertexList
          (commitSource g (Edge.new p.1.get_index p.2.get_index)
            (p.1.add_edge (Edge.new p.1.get_index p.2.get_index))).vertices
          u2 ∧
      u2.index = p.2.get_index ∧
      (∀ x, x ∈ u2.sources ↔
        (Edge.mk x p.2.get_index ∈ g.edges ∨ x = p.1.get_index)) ∧
      (∀ x, x ∈ u2.references ↔ Edge.mk p.2.get_index x ∈ g.edges) := by
  have hwi : (p.2.add_edge
      (Edge.new p.1.get_index p.2.get_index)).get_index = p.2.get_index :=
    index_add_edge_get
  have hg1r : (commitSource g (Edge.new p.1.get_index p.2.get_index)
      (p.1.add_edge (Edge.new p.1.get_index p.2.get_index))).get_vertex
      p.2.get_index = g.get_vertex p.2.get_index :=
    commitSource_get_vertex_ne
      (by rw [index_add_edge_get]; exact fun h => hne h.symm)
  cases hv : g.get_vertex p.2.get_index with
  | some vtx =>
    have hvidx : vtx.index = p.2.get_index := get_vertex_index hv
    have hvm : vtx ∈ g.vertices := get_vertex_mem hv
    have hupd := add_edge_vertex_reference
      (v := vtx) (e := Edge.new p.1.get_index p.2.get_index)
      (by rw [hvidx]; rfl) (by rw [hvidx]; exact hne)
    refine ⟨vtx.add_edge (Edge.new p.1.get_index p.2.get_index),
      commitReference_vertices_present (by rw [hwi, hg1r]; exact hv),
      ?_, ?_, ?_⟩
    · rw [index_add_edge, hvidx]
    · intro x
      rw [hupd.1, mem_insertSet]
      have := hT.alignSrcs vtx hvm x
      rw [hvidx] at this
      constructor
      · rintro (hm | rfl)
        · exact Or.inl (this.mp hm)
        · exact Or.inr rfl
      · rintro (hm | rfl)
        · exact Or.inl (this.mpr hm)
        · exact Or.inr rfl
    · intro x
      rw [hupd.2]
      have := hT.alignRefs vtx hvm x
      rw [hvidx] at this
      exact this
  | none =>
    have habs := get_vertex_none_iff.mp hv
    have hupd := add_edge_vertex_reference
      (v := p.2) (e := Edge.new p.1.get_index p.2.get_index)
      rfl hne
    have hnoedge_out : ∀ x, Edge.mk p.2.get_index x ∉ g.edges := by
      intro x hmem
      have hpres := (hT.invE.present _ hmem).1
      rw [get_vertex_isSome_iff] at hpres
      obtain ⟨v2, hv2, hv2i⟩ := hpres
      exact absurd hv2i (habs v2 hv2)
    have hnoedge_in : ∀ x, Edge.mk x p.2.get_index ∉ g.edges := by
      intro x hmem
      have hpres := (hT.invE.present _ hmem).2
      rw [get_vertex_isSome_iff] at hpres
      obtain ⟨v2, hv2, hv2i⟩ := hpres
      exact absurd hv2i (habs v2 hv2)
    refine ⟨p.2.add_edge (Edge.new p.1.get_index p.2.get_index),
      commitReference_vertices_absent (by rw [hwi, hg1r]; exact hv),
      ?_, ?_, ?_⟩
    · exact index_add_edge
    · intro x
      rw [hupd.1, hf.2.1, mem_insertSet]
      constructor
      · rintro (hm | rfl)
        · cases hm
        · exact Or.inr rfl
      · rintro (hm | rfl)
        · exact absurd hm (hnoedge_in x)
        · exact Or.inr rfl
    · intro x
      rw [hupd.2, hf.2.2]
      constructor
      · intro hm
        cases hm
      · intro hm
        exact absurd hm (hnoedge_out x)

/-- A commit with fresh vertex arguments preserves the alignment of
stored neighbor sets with the committed edge set. -/
theorem commit_align {g : BullDag T Ix} {p : Vertex T Ix × Vertex T Ix}
    (hT : TInv g) (hf : freshPair p)
    (hne : p.1.get_index ≠ p.2.get_index) :
    (∀ v ∈ (commitEdge g p).vertices, ∀ x,
      x ∈ v.references ↔ Edge.mk v.index x ∈ (commitEdge g p).edges) ∧
    (∀ v ∈ (commitEdge g p).vertices, ∀ x,
      x ∈ v.sources ↔ Edge.mk x v.index ∈ (commitEdge g p).edges) := by
  obtain ⟨u1, hvert1, hu1i, hu1r, hu1s⟩ := commit_u1_spec hT hf hne
  obtain ⟨u2, hvert2, hu2i, hu2s, hu2r⟩ := commit_u2_spec hT hf hne
  have hedges : (commitEdge g p).edges =
      insertSet g.edges (Edge.new p.1.get_index p.2.get_index) :=
    commitEdge_edges g p
  have hvert : (commitEdge g p).vertices =
      insertVertexList (insertVertexList g.vertices u1) u2 := by
    rw [commitEdge_vertices, hvert2, hvert1]
  have hedge_eq : ∀ a b : Ix,
      (Edge.mk a b = Edge.new p.1.get_index p.2.get_index) ↔
      (a = p.1.get_index ∧ b = p.2.get_index) := by
    intro a b
    constructor
    · intro h
      injection h with h1 h2
      exact ⟨h1, h2⟩
    · rintro ⟨rfl, rfl⟩
      rfl
  constructor
  · intro v hv x
    rw [hvert] at hv
    rw [hedges, mem_insertSet, hedge_eq]
    rcases mem_insertVertexList hv with rfl | ⟨hv1, hni2⟩
    · rw [hu2i, hu2r]
      constructor
      · intro hm
        exact Or.inl hm
      · rintro (hm | ⟨hcon, _⟩)
        · exact hm
        · exact absurd hcon.symm hne
    · rcases mem_insertVertexList hv1 with rfl | ⟨hv0, hni1⟩
      · rw [hu1i, hu1r]
        constructor
        · rintro (hm | rfl)
          · exact Or.inl hm
          · exact Or.inr ⟨rfl, rfl⟩
        · rintro (hm | ⟨_, rfl⟩)
          · exact Or.inl hm
          · exact Or.inr rfl
      · rw [hu1i] at hni1
        have hold := hT.alignRefs v hv0 x
        constructor
        · intro hm
          exact Or.inl (hold.mp hm)
        · rintro (hm | ⟨hcon, _⟩)
          · exact hold.mpr hm
          · exact absurd hcon hni1
  · intro v hv x
    rw [hvert] at hv
    rw [hedges, mem_insertSet, hedge_eq]
    rcases mem_insertVertexList hv with rfl | ⟨hv1, hni2⟩
    · rw [hu2i, hu2s]
      constructor
      · rintro (hm | rfl)
        · exact Or.inl hm
        · exact Or.inr ⟨rfl, rfl⟩
      · rintro (hm | ⟨rfl, _⟩)
        · exact Or.inl hm
        · exact Or.inr rfl
    · rcases mem_insertVertexList hv1 with rfl | ⟨hv0, hni1⟩
      · rw [hu1i, hu1s]
        constructor
        · intro hm
          exact Or.inl hm
        · rintro (hm | ⟨_, hcon⟩)
          · exact hm
          · exact absurd hcon hne
      · rw [hu2i] at hni2
        rw [hu1i] at hni1
        have hold := hT.alignSrcs v hv0 x
        constructor
        · intro hm
          exact Or.inl (hold.mp hm)
        · rintro (hm | ⟨_, hcon⟩)
          · exact hold.mpr hm
          · exact absurd hcon hni2
  -- (the reference-bucket mismatch in the first component uses hni2)

theorem tInv_new : TInv ((BullDag.new : BullDag T Ix)) := by
  refine ⟨invE_new, rlInv_new, ?_, ?_⟩
  · intro v hv
    cases hv
  · intro v hv
    cases hv

theorem tInv_add_edge {g : BullDag T Ix} {p : Vertex T Ix × Vertex T Ix}
    (hT : TInv g) (hf : freshPair p) : TInv (g.add_edge p) := by
  cases hok : isOkResult (g.check_cycles p) with
  | false =>
    rw [add_edge_of_not_ok hok]
    exact hT
  | true =>
    have hne : p.1.get_index ≠ p.2.get_index := check_ok_ne hok
    have halign := commit_align hT hf hne
    have hinvE := invE_add_edge hT.invE (p := p)
    have hrl := rlInv_add_edge hT.rl (p := p)
    rw [add_edge_of_ok hok] at hinvE hrl
    rw [add_edge_of_ok hok]
    exact ⟨hinvE, hrl, halign.1, halign.2⟩

theorem tInv_foldl {g : BullDag T Ix} (hT : TInv g)
    (ps : List (Vertex T Ix × Vertex T Ix))
    (hf : ∀ p ∈ ps, freshPair p) :
    TInv (ps.foldl BullDag.add_edge g) := by
  induction ps generalizing g with
  | nil => exact hT
  | cons p rest ih =>
    rw [List.foldl_cons]
    exact ih (tInv_add_edge hT (hf p (List.mem_cons_self p rest)))
      (fun p2 hp2 => hf p2 (List.mem_cons_of_mem _ hp2))

end Bulldag

namespace Bulldag

variable {T Ix : Type} [DecidableEq Ix]

/-! ### Correctness of `dfs` on aligned acyclic graphs -/

theorem indexOf_append_self {l : List Ix} {x : Ix} (h : x ∉ l) :
    (l ++ [x]).indexOf x = l.length := by
  induction l with
  | nil => simp [List.indexOf_cons]
  | cons y ys ih =>
    simp only [List.mem_cons, not_or] at h
    simp [List.indexOf_cons, List.cons_append, h.1, Ne.symm h.1, ih h.2]

theorem dfsList_good {g : BullDag T Ix}
    {rec : Vertex T Ix → List Ix → Option (List Ix)}
    (hrec : DfsGood g rec) :
    ∀ ns st out, st.Nodup → stackOrdered g st →
      dfsList g rec ns st = some out →
      (∃ ext, out = st ++ ext) ∧ out.Nodup ∧ stackOrdered g out ∧
      (∀ n ∈ ns, (g.get_vertex n).isSome → n ∈ out) ∧
      (∀ n ∈ ns, (g.get_vertex n).isSome →
        ∀ b, Relation.ReflTransGen (edgeStep g.edges) n b → b ∈ out) := by
  intro ns
  induction ns with
  | nil =>
    intro st out hnd hord h
    simp only [dfsList, Option.some_inj] at h
    subst h
    exact ⟨⟨[], by simp⟩, hnd, hord,
      fun n hn => absurd hn (List.not_mem_nil n),
      fun n hn => absurd hn (List.not_mem_nil n)⟩
  | cons n rest ih =>
    intro st out hnd hord h
    simp only [dfsList] at h
    cases hv : g.get_vertex n with
    | none =>
      rw [hv] at h
      dsimp only at h
      obtain ⟨hext, hnd2, hord2, hmem, hreach⟩ := ih st out hnd hord h
      refine ⟨hext, hnd2, hord2, ?_, ?_⟩
      · intro m hm hsome
        rcases List.mem_cons.mp hm with rfl | hm
        · rw [hv] at hsome
          cases hsome
        · exact hmem m hm hsome
      · intro m hm hsome b hb
        rcases List.mem_cons.mp hm with rfl | hm
        · rw [hv] at hsome
          cases hsome
        · exact hreach m hm hsome b hb
    | some vtx =>
      rw [hv] at h
      dsimp only at h
      cases hr : rec vtx st with
      | none => rw [hr] at h; dsimp only at h; cases h
      | some st1 =>
        rw [hr] at h
        dsimp only at h
        have hvidx : vtx.index = n := get_vertex_index hv
        have hlook : g.get_vertex vtx.index = some vtx := by
          rw [hvidx]
          exact hv
        obtain ⟨⟨e1, rfl⟩, hnd1, hord1, hself, hreach1⟩ :=
          hrec vtx st st1 hlook hnd hord hr
        obtain ⟨⟨e2, rfl⟩, hnd2, hord2, hmem2, hreach2⟩ :=
          ih _ out hnd1 hord1 h
        refine ⟨⟨e1 ++ e2, by rw [List.append_assoc]⟩, hnd2, hord2, ?_, ?_⟩
        · intro m hm hsome
          rcases List.mem_cons.mp hm with rfl | hm
          · rw [hvidx] at hself
            exact List.mem_append_left _ hself
          · exact hmem2 m hm hsome
        · intro m hm hsome b hb
          rcases List.mem_cons.mp hm with rfl | hm
          · rw [hvidx] at hreach1
            exact List.mem_append_left _ (hreach1 b hb)
          · exact hreach2 m hm hsome b hb

theorem dfs_good {g : BullDag T Ix} (hT : TInv g) :
    ∀ fuel, DfsGood g (g.dfs fuel) := by
  intro fuel
  induction fuel with
  | zero =>
    intro v st out hv hnd hord h
    simp [BullDag.dfs] at h
  | succ fuel ih =>
    intro v st out hv hnd hord h
    simp only [BullDag.dfs] at h
    cases hd : dfsList g (g.dfs fuel) v.get_references st with
    | none => rw [hd] at h; dsimp only at h; cases h
    | some st1 =>
      rw [hd] at h
      dsimp only at h
      simp only [Option.some_inj] at h
      obtain ⟨⟨e1, rfl⟩, hnd1, hord1, hmem1, hreach1⟩ :=
        dfsList_good ih v.get_references st st1 hnd hord hd
      have hout : out = insertSet (st ++ e1) v.index := by
        rw [← h]
        rfl
      have hvm : v ∈ g.vertices := get_vertex_mem hv
      have hsucc : ∀ b, Edge.mk v.index b ∈ g.edges → b ∈ st ++ e1 := by
        intro b hb
        have hbref : b ∈ v.get_references := (hT.alignRefs v hvm b).mpr hb
        have hbsome : (g.get_vertex b).isSome := (hT.invE.present _ hb).2
        exact hmem1 b hbref hbsome
      refine ⟨?_, ?_, ?_, ?_, ?_⟩
      · rw [hout]
        unfold insertSet
        split
        · exact ⟨e1, rfl⟩
        · exact ⟨e1 ++ [v.index], by rw [List.append_assoc]⟩
      · rw [hout]
        exact nodup_insertSet hnd1
      · rw [hout]
        unfold insertSet
        split
        · exact hord1
        · rename_i hnotin
          intro a ha b hb
          rcases List.mem_append.mp ha with ha1 | ha1
          · obtain ⟨hbm, hlt⟩ := hord1 a ha1 b hb
            refine ⟨List.mem_append_left _ hbm, ?_⟩
            rw [List.indexOf_append_of_mem hbm,
              List.indexOf_append_of_mem ha1]
            exact hlt
          · rw [List.mem_singleton] at ha1
            subst ha1
            have hbm := hsucc b hb
            refine ⟨List.mem_append_left _ hbm, ?_⟩
            rw [List.indexOf_append_of_mem hbm, indexOf_append_self hnotin]
            exact List.indexOf_lt_length.mpr hbm
      · rw [hout]
        exact self_mem_insertSet
      · intro b hb
        rw [hout]
        rcases Relation.ReflTransGen.cases_head hb with rfl | ⟨c, hvc, hcb⟩
        · exact self_mem_insertSet
        · have hcref : c ∈ v.get_references :=
            (hT.alignRefs v hvm c).mpr hvc
          have hcsome : (g.get_vertex c).isSome :=
            (hT.invE.present _ hvc).2
          exact mem_insertSet_of_mem (hreach1 c hcref hcsome b hcb)

end Bulldag

namespace Bulldag

variable {T Ix : Type} [DecidableEq Ix]

theorem dfsList_isSome {g : BullDag T Ix}
    {rec : Vertex T Ix → List Ix → Option (List Ix)} :
    ∀ ns st, (∀ n ∈ ns, ∀ vtx, g.get_vertex n = some vtx →
      ∀ st2, (rec vtx st2).isSome) → (dfsList g rec ns st).isSome := by
  intro ns
  induction ns with
  | nil => intro st _; rfl
  | cons n rest ih =>
    intro st hall
    simp only [dfsList]
    cases hv : g.get_vertex n with
    | none =>
      dsimp only
      exact ih st (fun m hm => hall m (List.mem_cons_of_mem _ hm))
    | some vtx =>
      dsimp only
      have hsome := hall n (List.mem_cons_self n rest) vtx hv st
      obtain ⟨st1, hst1⟩ := Option.isSome_iff_exists.mp hsome
      rw [hst1]
      dsimp only
      exact ih st1 (fun m hm => hall m (List.mem_cons_of_mem _ hm))

theorem dfsRelV_acyclic {g : BullDag T Ix} (hT : TInv g) :
    ∀ x, ¬ Relation.TransGen (dfsRelV g) x x := by
  intro x hx
  have hsub : ∀ a b, dfsRelV g a b → edgeStep g.edges b a := by
    rintro a b ⟨⟨vb, hvb, haref⟩, _⟩
    have hvbi : vb.index = b := get_vertex_index hvb
    have hmem := (hT.alignRefs vb (get_vertex_mem hvb) a).mp haref
    rw [hvbi] at hmem
    exact hmem
  have hsw : Relation.TransGen (Function.swap (edgeStep g.edges)) x x :=
    Relation.TransGen.mono hsub hx
  exact hT.invE.acyclic x (Relation.transGen_swap.mp hsw)

theorem dfs_isSome {g : BullDag T Ix} (hT : TInv g) :
    ∀ fuel (A : Finset Ix) (v : Vertex T Ix) st,
      g.get_vertex v.index = some v →
      (∀ x, Relation.ReflTransGen (dfsRelV g) x v.index → x ∈ A) →
      A.card < fuel → (g.dfs fuel v st).isSome := by
  intro fuel
  induction fuel with
  | zero => intro A v st _ _ h; omega
  | succ fuel ih =>
    intro A v st hv hA hcard
    simp only [BullDag.dfs]
    have hsome : (dfsList g (g.dfs fuel) v.get_references st).isSome := by
      apply dfsList_isSome
      intro n hn vtxn hvn st2
      have hvtxn_idx : vtxn.index = n := get_vertex_index hvn
      have hrel : dfsRelV g n v.index := ⟨⟨v, hv, hn⟩, by rw [hvn]; rfl⟩
      apply ih (A.erase v.index) vtxn st2
        (by rw [hvtxn_idx]; exact hvn)
      · intro x hx
        rw [hvtxn_idx] at hx
        have hxA : x ∈ A := hA x (hx.tail hrel)
        have hxne : x ≠ v.index := by
          rintro rfl
          exact dfsRelV_acyclic hT _ (Relation.TransGen.tail' hx hrel)
        exact Finset.mem_erase.mpr ⟨hxne, hxA⟩
      · have hvA : v.index ∈ A := hA v.index .refl
        have := Finset.card_erase_of_mem hvA
        have hpos : 0 < A.card := Finset.card_pos.mpr ⟨_, hvA⟩
        omega
    obtain ⟨st1, hst1⟩ := Option.isSome_iff_exists.mp hsome
    rw [hst1]
    rfl

theorem exists_root_path_aux {g : BullDag T Ix} (hT : TInv g) :
    ∀ (n : Nat) (A : Finset Ix) (v : Vertex T Ix), v ∈ g.vertices →
      A.card ≤ n →
      (∀ x, Relation.ReflTransGen (edgeStep g.edges) x v.index → x ∈ A) →
      ∃ ρ ∈ g.roots, Relation.ReflTransGen (edgeStep g.edges) ρ v.index := by
  intro n
  induction n with
  | zero =>
    intro A v _ hcard hA
    have hvA : v.index ∈ A := hA v.index .refl
    have := Finset.card_pos.mpr ⟨_, hvA⟩
    omega
  | succ n ih =>
    intro A v hv hcard hA
    by_cases hs : v.sources = []
    · exact ⟨v.index, (hT.rl.consistent v hv).1.mpr hs, .refl⟩
    · obtain ⟨s0, hs0⟩ := List.exists_mem_of_ne_nil v.sources hs
      have hedge : Edge.mk s0 v.index ∈ g.edges :=
        (hT.alignSrcs v hv s0).mp hs0
      have hpres := (hT.invE.present _ hedge).1
      rw [get_vertex_isSome_iff] at hpres
      obtain ⟨w, hw, hwi⟩ := hpres
      have hAcond : ∀ x, Relation.ReflTransGen (edgeStep g.edges) x w.index →
          x ∈ A.erase v.index := by
        intro x hx
        rw [hwi] at hx
        have hxA : x ∈ A := hA x (hx.tail hedge)
        have hxne : x ≠ v.index := by
          rintro rfl
          exact hT.invE.acyclic _ (Relation.TransGen.tail' hx hedge)
        exact Finset.mem_erase.mpr ⟨hxne, hxA⟩
      have hcard2 : (A.erase v.index).card ≤ n := by
        have hvA : v.index ∈ A := hA v.index .refl
        have := Finset.card_erase_of_mem hvA
        have hpos : 0 < A.card := Finset.card_pos.mpr ⟨_, hvA⟩
        omega
      obtain ⟨ρ, hρr, hρp⟩ := ih (A.erase v.index) w hw hcard2 hAcond
      exact ⟨ρ, hρr, hρp.tail (by rw [hwi]; exact hedge)⟩

theorem exists_root_path {g : BullDag T Ix} (hT : TInv g) :
    ∀ v ∈ g.vertices, ∃ ρ ∈ g.roots,
      Relation.ReflTransGen (edgeStep g.edges) ρ v.index := by
  intro v hv
  apply exists_root_path_aux hT
    ((g.vertices.map Vertex.index).toFinset.card + 1)
    (insert v.index (g.vertices.map Vertex.index).toFinset) v hv
  · exact Finset.card_insert_le _ _
  · intro x hx
    rcases Relation.ReflTransGen.cases_head hx with rfl | ⟨c, hxc, _⟩
    · exact Finset.mem_insert_self _ _
    · have hpres := (hT.invE.present _ hxc).1
      rw [get_vertex_isSome_iff] at hpres
      obtain ⟨w, hw, hwi⟩ := hpres
      exact Finset.mem_insert_of_mem
        (List.mem_toFinset.mpr (List.mem_map.mpr ⟨w, hw, hwi⟩))

theorem topoFold_spec {g : BullDag T Ix} (hT : TInv g) :
    ∀ roots st, st.Nodup → stackOrdered g st →
      ∃ out, topoFold g g.traceFuel roots st = some out ∧
        (∃ ext, out = st ++ ext) ∧ out.Nodup ∧ stackOrdered g out ∧
        (∀ ρ ∈ roots, (g.get_vertex ρ).isSome →
          ∀ b, Relation.ReflTransGen (edgeStep g.edges) ρ b → b ∈ out) := by
  intro roots
  induction roots with
  | nil =>
    intro st hnd hord
    exact ⟨st, rfl, ⟨[], by simp⟩, hnd, hord,
      fun ρ hρ => absurd hρ (List.not_mem_nil ρ)⟩
  | cons ρ rest ih =>
    intro st hnd hord
    simp only [topoFold]
    cases hv : g.get_vertex ρ with
    | none =>
      dsimp only
      obtain ⟨out, hout, hext, hnd2, hord2, hcov⟩ := ih st hnd hord
      refine ⟨out, hout, hext, hnd2, hord2, ?_⟩
      intro ρ2 hρ2 hsome
      rcases List.mem_cons.mp hρ2 with rfl | hρ2
      · rw [hv] at hsome
        cases hsome
      · exact hcov ρ2 hρ2 hsome
    | some vtx =>
      dsimp only
      have hvidx : vtx.index = ρ := get_vertex_index hv
      have hlook : g.get_vertex vtx.index = some vtx := by
        rw [hvidx]
        exact hv
      have hdfs_some : (g.dfs g.traceFuel vtx st).isSome := by
        apply dfs_isSome hT g.traceFuel
          (insert vtx.index (g.vertices.map Vertex.index).toFinset) vtx st
          hlook
        · intro x hx
          rcases Relation.ReflTransGen.cases_head hx with rfl | ⟨c, hxc, _⟩
          · exact Finset.mem_insert_self _ _
          · have hxs := hxc.2
            rw [get_vertex_isSome_iff] at hxs
            obtain ⟨w, hw, hwi⟩ := hxs
            exact Finset.mem_insert_of_mem
              (List.mem_toFinset.mpr (List.mem_map.mpr ⟨w, hw, hwi⟩))
        · have h1 := Finset.card_insert_le vtx.index
            (g.vertices.map Vertex.index).toFinset
          have h2 := List.toFinset_card_le (g.vertices.map Vertex.index)
          have h3 : (g.vertices.map Vertex.index).length =
              g.vertices.length := List.length_map _ _
          unfold BullDag.traceFuel
          omega
      obtain ⟨st1, hst1⟩ := Option.isSome_iff_exists.mp hdfs_some
      rw [hst1]
      dsimp only
      obtain ⟨⟨e1, rfl⟩, hnd1, hord1, hself, hreach1⟩ :=
        dfs_good hT g.traceFuel vtx st st1 hlook hnd hord hst1
      obtain ⟨out, hout, ⟨e2, rfl⟩, hnd2, hord2, hcov⟩ := ih _ hnd1 hord1
      refine ⟨(st ++ e1) ++ e2, hout,
        ⟨e1 ++ e2, by rw [List.append_assoc]⟩, hnd2, hord2, ?_⟩
      intro ρ2 hρ2 hsome b hb
      rcases List.mem_cons.mp hρ2 with rfl | hρ2
      · rw [hvidx] at hreach1
        exact List.mem_append_left _ (hreach1 b hb)
      · exact hcov ρ2 hρ2 hsome b hb

theorem stack_order_transGen {g : BullDag T Ix} {st : List Ix}
    (hord : stackOrdered g st) :
    ∀ a b, Relation.TransGen (edgeStep g.edges) a b → a ∈ st →
      b ∈ st ∧ st.indexOf b < st.indexOf a := by
  intro a b h
  induction h with
  | single hstep =>
    intro ha
    exact hord a ha _ hstep
  | tail _ hstep ih =>
    intro ha
    obtain ⟨hmid, hlt⟩ := ih ha
    obtain ⟨hb, hlt2⟩ := hord _ hmid _ hstep
    exact ⟨hb, Nat.lt_trans hlt2 hlt⟩

theorem listBefore_reverse {l : List Ix} {a b : Ix}
    (ha : a ∈ l) (hb : b ∈ l) (hlt : l.indexOf b < l.indexOf a) :
    listBefore l.reverse a b := by
  have hia : l.indexOf a < l.length := List.indexOf_lt_length.mpr ha
  have hib : l.indexOf b < l.length := List.indexOf_lt_length.mpr hb
  refine ⟨l.length - 1 - l.indexOf a, l.length - 1 - l.indexOf b,
    by omega, ?_, ?_⟩
  · have hlt2 : l.length - 1 - l.indexOf a < l.length := by omega
    rw [List.get?_reverse hlt2]
    have heq : l.length - 1 - (l.length - 1 - l.indexOf a) = l.indexOf a :=
      by omega
    rw [heq]
    exact List.indexOf_get? ha
  · have hlt2 : l.length - 1 - l.indexOf b < l.length := by omega
    rw [List.get?_reverse hlt2]
    have heq : l.length - 1 - (l.length - 1 - l.indexOf b) = l.indexOf b :=
      by omega
    rw [heq]
    exact List.indexOf_get? hb

end Bulldag

namespace Bulldag

variable {T Ix : Type} [DecidableEq Ix]

theorem topological_sort_err {g : BullDag T Ix}
    (h : g.get_roots.isEmpty = true ∨ g.get_leaves.isEmpty = true) :
    g.topological_sort = some (.Err .WouldCycle) := by
  unfold BullDag.topological_sort
  dsimp only
  rcases h with h | h
  · rw [if_pos h]
  · by_cases hr : g.get_roots.isEmpty = true
    · rw [if_pos hr]
    · rw [if_neg hr, if_pos h]

theorem topological_sort_sound {g : BullDag T Ix} (hT : TInv g)
    (hr : g.get_roots.isEmpty = false) (hl : g.get_leaves.isEmpty = false) :
    ∃ l, g.topological_sort = some (.Ok (.VecRes l)) ∧
      (∀ v ∈ g.vertices, v.index ∈ l) ∧
      (∀ a b, Relation.TransGen (edgeStep g.edges) a b →
        listBefore l a b) := by
  obtain ⟨out, hout, _, hnd, hord, hcov⟩ :=
    topoFold_spec hT g.get_roots [] List.nodup_nil
      (by intro a ha; cases ha)
  have hcomplete : ∀ v ∈ g.vertices, v.index ∈ out := by
    intro v hv
    obtain ⟨ρ, hρr, hρp⟩ := exists_root_path hT v hv
    have hρsome : (g.get_vertex ρ).isSome := by
      obtain ⟨w, hw, hwi⟩ := hT.rl.rootsKeys ρ hρr
      rw [get_vertex_isSome_iff]
      exact ⟨w, hw, hwi⟩
    exact hcov ρ hρr hρsome v.index hρp
  have hmain : g.topological_sort = some (.Ok (.VecRes out.reverse)) := by
    unfold BullDag.topological_sort
    dsimp only
    rw [if_neg (by rw [hr]; exact Bool.false_ne_true),
      if_neg (by rw [hl]; exact Bool.false_ne_true), hout]
  refine ⟨out.reverse, hmain, ?_, ?_⟩
  · intro v hv
    rw [List.mem_reverse]
    exact hcomplete v hv
  · intro a b htg
    have hastored : ∃ w ∈ g.vertices, w.index = a := by
      rcases Relation.TransGen.head'_iff.mp htg with ⟨c, hac, _⟩
      have hpres := (hT.invE.present _ hac).1
      rw [get_vertex_isSome_iff] at hpres
      exact hpres
    obtain ⟨w, hw, hwi⟩ := hastored
    have ham : a ∈ out := by
      rw [← hwi]
      exact hcomplete w hw
    obtain ⟨hbm, hlt⟩ := stack_order_transGen hord a b htg ham
    exact listBefore_reverse ham hbm hlt

/-- C4 counterexample: after committing the edge `(1, 2)` and then
overwriting vertex 1 with a fresh vertex via `add_vertex`, the root and
leaf sets are non-empty, yet `topological_sort` returns `[1]` only: the
stored vertex 2 — reachable from 1 along the committed edge — never
appears, so the output is not a valid linearization. -/
theorem claim4_counterexample :
    c4state.get_roots.isEmpty = false ∧
    c4state.get_leaves.isEmpty = false ∧
    c4state.topological_sort = some (.Ok (.VecRes [1])) ∧
    Edge.mk 1 2 ∈ c4state.edges ∧
    (∃ v ∈ c4state.vertices, v.index = 2) ∧
    ¬ listBefore [1] 1 2 := by
  refine ⟨by decide, by decide, by decide, by decide, by decide, ?_⟩
  rintro ⟨i, j, hij, hi, hj⟩
  cases j with
  | zero => omega
  | succ j2 =>
    rw [List.get?_cons_succ] at hj
    cases hj

/-- C4 (amended): `topological_sort` fails exactly on an empty root or
leaf set; and on every graph reached from a new `BullDag` purely by
`add_edge`/`extend_from_edges` submissions of freshly constructed vertex
pairs (no `add_vertex` overwrites), a non-empty root and leaf set yields
a `VecRes` listing every stored vertex key, with every key placed before
all keys reachable from it along committed edges; for the 5-vertex/6-edge
example the result is one of the two accepted orderings. -/
theorem claim4_amended :
    (∀ (T Ix : Type) [DecidableEq Ix] (g : BullDag T Ix),
      g.get_roots.isEmpty = true ∨ g.get_leaves.isEmpty = true →
      g.topological_sort = some (.Err .WouldCycle)) ∧
    (∀ (T Ix : Type) [DecidableEq Ix]
      (ps : List (Vertex T Ix × Vertex T Ix)),
      (∀ p ∈ ps, freshPair p) →
      (ps.foldl BullDag.add_edge BullDag.new).get_roots.isEmpty = false →
      (ps.foldl BullDag.add_edge BullDag.new).get_leaves.isEmpty = false →
      ∃ l, (ps.foldl BullDag.add_edge BullDag.new).topological_sort =
          some (.Ok (.VecRes l)) ∧
        (∀ v ∈ (ps.foldl BullDag.add_edge BullDag.new).vertices,
          v.index ∈ l) ∧
        (∀ a b, Relation.TransGen
          (edgeStep (ps.foldl BullDag.add_edge BullDag.new).edges) a b →
          listBefore l a b)) ∧
    ((BullDag.new.extend_from_edges c4pairs).topological_sort =
        some (.Ok (.VecRes c4opt1)) ∨
      (BullDag.new.extend_from_edges c4pairs).topological_sort =
        some (.Ok (.VecRes c4opt2))) := by
  refine ⟨?_, ?_, ?_⟩
  · intro T Ix _ g h
    exact topological_sort_err h
  · intro T Ix _ ps hf hr hl
    exact topological_sort_sound (tInv_foldl tInv_new ps hf) hr hl
  · left
    decide

/-- Witness for the amended C4 on a concrete one-edge submission list. -/
theorem claim4_amended_witness :
    ∃ l, ([(mkv 1, mkv 2)].foldl BullDag.add_edge
        ((BullDag.new : BullDag Nat Nat))).topological_sort =
        some (.Ok (.VecRes l)) ∧
      (∀ v ∈ ([(mkv 1, mkv 2)].foldl BullDag.add_edge
        ((BullDag.new : BullDag Nat Nat))).vertices, v.index ∈ l) ∧
      (∀ a b, Relation.TransGen
        (edgeStep ([(mkv 1, mkv 2)].foldl BullDag.add_edge
          ((BullDag.new : BullDag Nat Nat))).edges) a b →
        listBefore l a b) :=
  claim4_amended.2.1 Nat Nat [(mkv 1, mkv 2)]
    (by
      intro p hp
      rcases List.mem_cons.mp hp with rfl | hp
      · exact ⟨⟨rfl, rfl⟩, ⟨rfl, rfl⟩⟩
      · cases hp)
    (by decide) (by decide)

end Bulldag
